import Mathlib

/-!
Shallow embedding of the MCTS board-game engine
(repository `board_game_ai_test`) and verification of its specification.

Machine integers (`u8`/`u16`/`u32`/`u64`/`usize`) are modelled as `Nat`;
wherever a Rust operation can overflow the embedding reduces modulo the
corresponding power of two.  `f64` scores are modelled as exact rationals
(the verified runs only use values and operations on which IEEE double
arithmetic is exact); the transcendental operations `f64::ln` and
`f64::sqrt` are passed in as explicit oracle parameters.
-/

namespace BoardGame

/-- Winner enumeration from `monte_carlo_game.rs`. -/
inductive Winner where
  | WIN
  | TIE
deriving DecidableEq, Repr

/-- Player enumeration from `monte_carlo_game.rs`; `P1 = 1`, `P2 = 0` as `u8`. -/
inductive TwoPlayer where
  | P1
  | P2
deriving DecidableEq, Repr

/-- Numeric value of a player (`TwoPlayer as u8`). -/
def TwoPlayer.toU8 : TwoPlayer → Nat
  | .P1 => 1
  | .P2 => 0

/-- Embedding of `TwoPlayer::next`. -/
def TwoPlayer.next : TwoPlayer → TwoPlayer
  | .P1 => .P2
  | .P2 => .P1

/-! ### Tic-Tac-Toe (`tic_tac_toe.rs`) -/

namespace TTT

/-- `BOARD_MASK` from `tic_tac_toe.rs`. -/
def BOARD_MASK : Nat := 0b111111111

/-- Embedding of `pos_player1`. -/
def pos_player1 (board : Nat) : Nat := board &&& BOARD_MASK

/-- Embedding of `pos_player2`. -/
def pos_player2 (board : Nat) : Nat := (board >>> 9) &&& BOARD_MASK

/-- Embedding of `get_player`; the argument is a `u32` so `board >> 31` is its top bit. -/
def get_player (board : Nat) : TwoPlayer :=
  if board >>> 31 = 1 then .P1 else .P2

/-- Embedding of `won_one_board` (`board` is a `u16`; left shifts reduce mod `2^16`). -/
def won_one_board (board : Nat) : Bool :=
  let LINE_WON : Nat := 0b100100100
  let row_won := (board &&& ((board <<< 1) % 65536) &&& ((board <<< 2) % 65536)) &&& LINE_WON
  let COL_WON : Nat := 0b111000000
  let col_won := (board &&& ((board <<< 3) % 65536) &&& ((board <<< 6) % 65536)) &&& COL_WON
  let dig1_won := ((board >>> 8) &&& (board >>> 4) &&& board) &&& 1
  let dig2_won := (board &&& (board >>> 2) &&& (board >>> 4)) &&& 0b100
  decide ((row_won ||| col_won ||| dig1_won ||| dig2_won) > 0)

/-- Embedding of `is_tie`. -/
def is_tie (board : Nat) : Bool :=
  decide (((board >>> 9) ||| board) &&& BOARD_MASK = BOARD_MASK)

end TTT

/-- Tic-Tac-Toe state: a single `u32` word (`tic_tac_toe.rs`). -/
structure TicTacToe where
  game_state : Nat
deriving DecidableEq, Repr

/-- Moves are the nine cells `I1 = 0 … I9 = 8`. -/
def TicTacToeMove : Type := Fin 9
deriving instance DecidableEq, Repr for TicTacToeMove

/-- Embedding of `TicTacToe::new` (`0 | 1 << 31`). -/
def TicTacToe.new : TicTacToe := { game_state := 0 ||| (1 <<< 31) }

/-- Embedding of `TicTacToe::player`. -/
def TicTacToe.player (s : TicTacToe) : TwoPlayer := TTT.get_player s.game_state

/-- Embedding of `TicTacToe::make_move`.  `none` models `Err(())`. -/
def TicTacToe.make_move (s : TicTacToe) (m : TicTacToeMove) :
    Option (TicTacToe × Option Winner) :=
  let player_board_off : Nat :=
    match TTT.get_player s.game_state with
    | .P1 => 0
    | .P2 => 9
  let m_bit : Nat := 1 <<< ((m : Fin 9).val + player_board_off)
  if s.game_state &&& m_bit > 0 then
    none
  else
    let new_board := s.game_state ||| m_bit
    let fw : Nat × Option Winner :=
      if TTT.won_one_board ((new_board >>> player_board_off) &&& TTT.BOARD_MASK) then
        (0, some .WIN)
      else if TTT.is_tie new_board then
        (0, some .TIE)
      else
        (1 <<< 31, none)
    some ({ game_state := new_board ^^^ fw.1 }, fw.2)

/-- Embedding of `CheckWinMonteCarloGame::win_state` for `TicTacToe`. -/
def TicTacToe.win_state (s : TicTacToe) : Option Winner :=
  let off : Nat :=
    match TTT.get_player s.game_state with
    | .P1 => 0
    | .P2 => 9
  if TTT.won_one_board ((s.game_state >>> off) &&& TTT.BOARD_MASK) then
    some .WIN
  else if TTT.is_tie s.game_state then
    some .TIE
  else
    none

/-- Trailing zeros of a `u16` (fuel-16 recursion; `trailing_zeros(0) = 16`). -/
def u16TrailingZeros (x : Nat) : Nat := go 16 x where
  go : Nat → Nat → Nat
    | 0, _ => 0
    | f + 1, x => if x % 2 = 1 then 0 else go f (x / 2) + 1

/-- One step of the `TicTacToeMoves` iterator (`Iterator::next`):
`try_from(trailing_zeros)` succeeds exactly when the index is `< 9`. -/
def tttMovesNext (remaining : Nat) : Option (TicTacToeMove × Nat) :=
  let next := u16TrailingZeros remaining
  if h : next < 9 then some ((⟨next, h⟩ : Fin 9), remaining ^^^ (1 <<< next)) else none

/-- Drain of the `TicTacToeMoves` iterator.  The fuel `10` strictly exceeds the
nine items the iterator can ever yield on a masked 9-bit `remaining`
(lemma `tttDrain_fuel_stable` shows the choice of fuel is irrelevant). -/
def tttDrain : Nat → Nat → List TicTacToeMove
  | 0, _ => []
  | f + 1, r =>
    match tttMovesNext r with
    | none => []
    | some (m, r2) => m :: tttDrain f r2

/-- Embedding of `TicTacToe::moves` (the `remaining` bit set handed to the iterator):
`!used_pos` is `u32` complement. -/
def TicTacToe.movesBits (s : TicTacToe) : Nat :=
  let used_pos := TTT.pos_player1 s.game_state ||| TTT.pos_player2 s.game_state
  ((4294967295 ^^^ used_pos) &&& TTT.BOARD_MASK)

/-- The full move sequence yielded by `TicTacToe::moves`. -/
def TicTacToe.movesList (s : TicTacToe) : List TicTacToeMove :=
  tttDrain 10 s.movesBits

/-! ### Connect-Four 7×6 (`line_four_7x6.rs`) -/

/-- Connect-Four 7×6 state: two `u64` bitboards plus the turn. -/
structure LineFourGame where
  set_by_p1 : Nat
  set_by_p2 : Nat
  turn : TwoPlayer
deriving DecidableEq, Repr

/-- A column index `I0 … I6`. -/
def LineFourIndex : Type := Fin 7
deriving instance DecidableEq, Repr for LineFourIndex

namespace LF

/-- Trailing ones of a `u64` value (fuel-64 recursion, `trailing_ones(2^64-1) = 64`). -/
def u64TrailingOnes (x : Nat) : Nat := go 64 x where
  go : Nat → Nat → Nat
    | 0, _ => 0
    | f + 1, x => if x % 2 = 1 then go f (x / 2) + 1 else 0

/-- `VERTICAL_WON` from `has_won_in`. -/
def VERTICAL_WON : Nat := 0b111000111000111000111000111000111000111000

/-- `HORIZONTAL_WON` from `has_won_in`. -/
def HORIZONTAL_WON : Nat := 0b1111111111111111111111111111000000000000000000

/-- `LTRB_DIAGONAL` from `has_won_in`. -/
def LTRB_DIAGONAL : Nat := VERTICAL_WON &&& HORIZONTAL_WON

/-- `LBRT_DIAGONAL` from `has_won_in`. -/
def LBRT_DIAGONAL : Nat := 0b000111000111000111000111000000000000000000

/-- `TIE` mask from `set_at_index` (all 42 cells). -/
def TIE_MASK : Nat := 0b111111111111111111111111111111111111111111

/-- The `u64` modulus. -/
def U64 : Nat := 18446744073709551616

end LF

/-- Embedding of `LineFourGame::has_won_in` (`board` is a `u64`; left shifts reduce
mod `2^64`). -/
def LineFourGame.has_won_in (board : Nat) : Bool :=
  if (board &&& ((board <<< 1) % LF.U64) &&& ((board <<< 2) % LF.U64)
      &&& ((board <<< 3) % LF.U64)) &&& LF.VERTICAL_WON > 0 then
    true
  else if (board &&& ((board <<< 6) % LF.U64) &&& ((board <<< 12) % LF.U64)
      &&& ((board <<< 18) % LF.U64)) &&& LF.HORIZONTAL_WON > 0 then
    true
  else if (board &&& ((board <<< 7) % LF.U64) &&& ((board <<< 14) % LF.U64)
      &&& ((board <<< 21) % LF.U64)) &&& LF.LTRB_DIAGONAL > 0 then
    true
  else if (board &&& ((board <<< 5) % LF.U64) &&& ((board <<< 10) % LF.U64)
      &&& ((board <<< 15) % LF.U64)) &&& LF.LBRT_DIAGONAL > 0 then
    true
  else
    false

/-- Embedding of `LineFourGame::set_at_index` (pure: returns the updated state;
`none` models `Err(())`). -/
def LineFourGame.set_at_index (g : LineFourGame) (index : LineFourIndex) :
    Option (LineFourGame × Option Winner) :=
  let idx : Nat := (index : Fin 7).val
  let set_index0 := LF.u64TrailingOnes (((g.set_by_p1 ||| g.set_by_p2) >>> (idx * 6)) &&& 0b111111)
  if set_index0 ≥ 6 then
    none
  else
    let set_index := set_index0 + idx * 6
    let pnum : Nat := g.turn.toU8
    let p1 := g.set_by_p1 ||| ((pnum <<< set_index) % LF.U64)
    let p2 := g.set_by_p2 ||| (((pnum ^^^ 1) <<< set_index) % LF.U64)
    let board := if pnum = 1 then p1 else p2
    if LineFourGame.has_won_in board then
      some ({ set_by_p1 := p1, set_by_p2 := p2, turn := g.turn }, some .WIN)
    else if p2 ||| p1 = LF.TIE_MASK then
      some ({ set_by_p1 := p1, set_by_p2 := p2, turn := g.turn }, some .TIE)
    else
      some ({ set_by_p1 := p1, set_by_p2 := p2, turn := g.turn.next }, none)

/-- Embedding of `LineFourGame::new`. -/
def LineFourGame.new : LineFourGame :=
  { set_by_p1 := 0, set_by_p2 := 0, turn := .P1 }

/-- Embedding of `LineFourGame::make_move` (clone + `set_at_index`). -/
def LineFourGame.make_move (g : LineFourGame) (m : LineFourIndex) :
    Option (LineFourGame × Option Winner) :=
  g.set_at_index m

/-- One row of the `VALID_MOVES` table (`line_four_move_set`): the macro unrolls to
seven conditional pushes `I0 … I6` into a length-7 array pre-filled with `I0`. -/
def line_four_move_set_row (i : Nat) : List LineFourIndex × Nat :=
  let step : List LineFourIndex × Nat → Fin 7 → List LineFourIndex × Nat :=
    fun acc j =>
      if (i >>> (j : Fin 7).val) &&& 1 = 1 then (acc.1.set acc.2 j, acc.2 + 1) else acc
  let a0 := step (List.replicate 7 ((0 : Fin 7) : LineFourIndex), 0) 0
  let a1 := step a0 1
  let a2 := step a1 2
  let a3 := step a2 3
  let a4 := step a3 4
  let a5 := step a4 5
  step a5 6

/-- Number of ones of a `u8` (`count_ones`). -/
def popCount8 (x : Nat) : Nat :=
  (List.range 8).countP (fun i => x.testBit i)

/-- Embedding of the `viable` accumulation loop in `LineFourGame::moves`
(the `as u8` cast reduces mod 256). -/
def LineFourGame.viable (g : LineFourGame) : Nat :=
  let used := g.set_by_p1 ||| g.set_by_p2
  (List.range 7).foldl
    (fun viable i =>
      let mask : Nat := 1 <<< i
      let shift_by := 5 * (i + 1)
      let column := used >>> shift_by
      let column_top := column &&& mask
      let column_free := column_top ^^^ mask
      viable ||| (column_free % 256))
    0

/-- The move sequence yielded by `LineFourGame::moves`:
`VALID_MOVES[viable][0 .. viable.count_ones()]`. -/
def LineFourGame.movesList (g : LineFourGame) : List LineFourIndex :=
  ((line_four_move_set_row g.viable).1).take (popCount8 g.viable)

end BoardGame

/-! ### Helper lemmas on the bit-level embeddings -/

namespace BoardGame

/-- Testing `x & (1 << k) > 0` is exactly testing bit `k`. -/
theorem and_one_shiftLeft_pos (x k : Nat) : (0 < x &&& (1 <<< k)) ↔ x.testBit k = true := by
  have h1 : (1 : Nat) <<< k = 2 ^ k := by
    rw [Nat.shiftLeft_eq, one_mul]
  rw [h1, Nat.and_two_pow]
  cases h : x.testBit k <;> simp [h]

theorem BOARD_MASK_eq : TTT.BOARD_MASK = 2 ^ 9 - 1 := by rfl

/-- Bits of the player-1 board extract. -/
theorem pos_player1_testBit (b i : Nat) (hi : i < 9) :
    (TTT.pos_player1 b).testBit i = b.testBit i := by
  rw [TTT.pos_player1, BOARD_MASK_eq, Nat.testBit_and, Nat.testBit_two_pow_sub_one]
  simp [hi]

/-- Bits of the player-2 board extract. -/
theorem pos_player2_testBit (b i : Nat) (hi : i < 9) :
    (TTT.pos_player2 b).testBit i = b.testBit (i + 9) := by
  rw [TTT.pos_player2, BOARD_MASK_eq, Nat.testBit_and, Nat.testBit_two_pow_sub_one,
    Nat.testBit_shiftRight]
  simp [hi, Nat.add_comm 9 i]

set_option maxRecDepth 4000 in
/-- The drained iterator on any 9-bit `remaining` yields exactly the set bits in
ascending order. -/
theorem ttt_drain_eq : ∀ r : Nat, r < 512 →
    tttDrain 10 r = (List.finRange 9).filter (fun i => r.testBit i.val) := by
  decide

/-- The `remaining` word handed to the move iterator is 9-bit. -/
theorem movesBits_lt (s : TicTacToe) : s.movesBits < 512 := by
  have h := Nat.and_le_right (n := 4294967295 ^^^ (TTT.pos_player1 s.game_state |||
    TTT.pos_player2 s.game_state)) (m := TTT.BOARD_MASK)
  have : TTT.BOARD_MASK = 511 := by rfl
  rw [TicTacToe.movesBits]
  omega

/-- Bit `i < 9` of the `remaining` word is set iff cell `i` is occupied by neither player. -/
theorem movesBits_testBit (s : TicTacToe) (i : Nat) (hi : i < 9) :
    s.movesBits.testBit i =
      !((TTT.pos_player1 s.game_state).testBit i || (TTT.pos_player2 s.game_state).testBit i) := by
  have h32 : (4294967295 : Nat) = 2 ^ 32 - 1 := by rfl
  rw [TicTacToe.movesBits, BOARD_MASK_eq, Nat.testBit_and, Nat.testBit_xor, h32,
    Nat.testBit_two_pow_sub_one, Nat.testBit_two_pow_sub_one, Nat.testBit_or]
  have hi32 : i < 32 := by omega
  simp [hi, hi32]

/-- Characterization of the Tic-Tac-Toe move enumeration. -/
theorem ttt_movesList_spec (s : TicTacToe) :
    s.movesList = (List.finRange 9).filter
      (fun i => !((TTT.pos_player1 s.game_state).testBit i.val ||
        (TTT.pos_player2 s.game_state).testBit i.val)) := by
  rw [TicTacToe.movesList, ttt_drain_eq _ (movesBits_lt s)]
  exact List.filter_congr (fun i _ => movesBits_testBit s i.val i.isLt)

/-- One `viable` accumulation term of `LineFourGame::moves` reduces to a single
top-cell test. -/
theorem lf_viable_term (used i : Nat) (hi : i < 7) :
    ((((used >>> (5 * (i + 1))) &&& (1 <<< i)) ^^^ (1 <<< i)) % 256) =
      if used.testBit (6 * i + 5) then 0 else 2 ^ i := by
  have h1 : (1 : Nat) <<< i = 2 ^ i := by rw [Nat.shiftLeft_eq, one_mul]
  have h2 : (used >>> (5 * (i + 1))).testBit i = used.testBit (6 * i + 5) := by
    rw [Nat.testBit_shiftRight]
    congr 1
    omega
  have hpow : 2 ^ i < 256 := by
    calc 2 ^ i ≤ 2 ^ 6 := Nat.pow_le_pow_right (by omega) (by omega)
    _ < 256 := by omega
  rw [h1, Nat.and_two_pow, h2]
  cases h : used.testBit (6 * i + 5)
  · simp [Nat.mod_eq_of_lt hpow]
  · simp

/-- The `viable` byte written out as a disjunction of the seven top-cell tests. -/
theorem lf_viable_eq (g : LineFourGame) :
    g.viable =
      (if (g.set_by_p1 ||| g.set_by_p2).testBit 5 then 0 else 2 ^ 0) |||
      (if (g.set_by_p1 ||| g.set_by_p2).testBit 11 then 0 else 2 ^ 1) |||
      (if (g.set_by_p1 ||| g.set_by_p2).testBit 17 then 0 else 2 ^ 2) |||
      (if (g.set_by_p1 ||| g.set_by_p2).testBit 23 then 0 else 2 ^ 3) |||
      (if (g.set_by_p1 ||| g.set_by_p2).testBit 29 then 0 else 2 ^ 4) |||
      (if (g.set_by_p1 ||| g.set_by_p2).testBit 35 then 0 else 2 ^ 5) |||
      (if (g.set_by_p1 ||| g.set_by_p2).testBit 41 then 0 else 2 ^ 6) := by
  have h := fun i hi => lf_viable_term (g.set_by_p1 ||| g.set_by_p2) i hi
  have e : List.range 7 = [0, 1, 2, 3, 4, 5, 6] := by rfl
  rw [LineFourGame.viable, e]
  simp only [List.foldl]
  rw [h 0 (by omega), h 1 (by omega), h 2 (by omega), h 3 (by omega), h 4 (by omega),
    h 5 (by omega), h 6 (by omega)]
  norm_num [Nat.zero_or]

/-- Bit `j < 7` of `viable` is set iff the top cell of column `j` is free. -/
theorem lf_viable_testBit (g : LineFourGame) (j : Nat) (hj : j < 7) :
    g.viable.testBit j = !((g.set_by_p1 ||| g.set_by_p2).testBit (j * 6 + 5)) := by
  rw [lf_viable_eq]
  have tb : ∀ (c : Bool) (i : Nat),
      (if c then (0 : Nat) else 2 ^ i).testBit j = (!c && decide (i = j)) := by
    intro c i
    cases c
    · simp [Nat.testBit_two_pow]
    · simp [Nat.zero_testBit]
  simp only [Nat.testBit_or, tb]
  interval_cases j <;>
    cases h : (g.set_by_p1 ||| g.set_by_p2).testBit (5 : Nat) <;>
      simp_all [Nat.testBit_or]

/-- The `viable` byte fits in 7 bits. -/
theorem lf_viable_lt (g : LineFourGame) : g.viable < 128 := by
  rw [lf_viable_eq]
  have hb : ∀ (c : Bool) (i : Nat), i < 7 → (if c then (0 : Nat) else 2 ^ i) < 128 := by
    intro c i hi
    have hle : 2 ^ i < 128 := by
      calc 2 ^ i ≤ 2 ^ 6 := Nat.pow_le_pow_right (by omega) (by omega)
        _ < 128 := by omega
    cases c <;> simp [hle]
  have h128 : (128 : Nat) = 2 ^ 7 := by rfl
  rw [h128]
  refine Nat.or_lt_two_pow ?_ (by rw [← h128]; exact hb _ 6 (by omega))
  refine Nat.or_lt_two_pow ?_ (by rw [← h128]; exact hb _ 5 (by omega))
  refine Nat.or_lt_two_pow ?_ (by rw [← h128]; exact hb _ 4 (by omega))
  refine Nat.or_lt_two_pow ?_ (by rw [← h128]; exact hb _ 3 (by omega))
  refine Nat.or_lt_two_pow ?_ (by rw [← h128]; exact hb _ 2 (by omega))
  exact Nat.or_lt_two_pow (by rw [← h128]; exact hb _ 0 (by omega))
    (by rw [← h128]; exact hb _ 1 (by omega))

/-- On every 7-bit index the `VALID_MOVES` row prefix is the ascending list of set bits. -/
theorem lf_row_take : ∀ v : Nat, v < 128 →
    ((line_four_move_set_row v).1.take (popCount8 v)) =
      (List.finRange 7).filter (fun i => v.testBit i.val) := by
  decide

/-- Characterization of the Connect-Four 7×6 move enumeration. -/
theorem lf_movesList_spec (g : LineFourGame) :
    g.movesList = (List.finRange 7).filter
      (fun i => !((g.set_by_p1 ||| g.set_by_p2).testBit (i.val * 6 + 5))) := by
  rw [LineFourGame.movesList, lf_row_take _ (lf_viable_lt g)]
  exact List.filter_congr (fun i _ => lf_viable_testBit g i.val i.isLt)

end BoardGame

namespace BoardGame

/-! ### Claim C10: move enumeration order and content -/

/-- C10.  `moves()` enumerates exactly the legal moves in strictly increasing index
order: for Tic-Tac-Toe the cells occupied by neither player in ascending cell
index, for Connect-Four 7×6 the columns whose top cell is free in ascending
column index.  (Equal states trivially produce identical orderings since the
enumeration is a function of the state.) -/
theorem C10_moves_ascending_exact :
    (∀ s : TicTacToe,
      s.movesList = (List.finRange 9).filter
        (fun i => !((TTT.pos_player1 s.game_state).testBit i.val ||
          (TTT.pos_player2 s.game_state).testBit i.val)) ∧
      List.Pairwise (fun a b : TicTacToeMove => (a : Fin 9).val < (b : Fin 9).val)
        s.movesList) ∧
    (∀ g : LineFourGame,
      g.movesList = (List.finRange 7).filter
        (fun i => !((g.set_by_p1 ||| g.set_by_p2).testBit (i.val * 6 + 5))) ∧
      List.Pairwise (fun a b : LineFourIndex => (a : Fin 7).val < (b : Fin 7).val)
        g.movesList) := by
  constructor
  · intro s
    refine ⟨ttt_movesList_spec s, ?_⟩
    rw [ttt_movesList_spec s]
    exact ((List.pairwise_lt_finRange 9).sublist (List.filter_sublist _)).imp (fun h => h)
  · intro g
    refine ⟨lf_movesList_spec g, ?_⟩
    rw [lf_movesList_spec g]
    exact ((List.pairwise_lt_finRange 7).sublist (List.filter_sublist _)).imp (fun h => h)

/-! ### Claim C5: moves of terminal states -/

/-- Move sequence reaching a won Tic-Tac-Toe position (X plays the top row). -/
def c5TTTSeq : List TicTacToeMove :=
  [(0 : Fin 9), (3 : Fin 9), (1 : Fin 9), (4 : Fin 9), (2 : Fin 9)]

/-- Move sequence reaching a won Connect-Four position (P1 fills column 0). -/
def c5LFSeq : List LineFourIndex :=
  [(0 : Fin 7), (1 : Fin 7), (0 : Fin 7), (1 : Fin 7), (0 : Fin 7), (1 : Fin 7), (0 : Fin 7)]

/-- Fold of `make_move` along a Tic-Tac-Toe move sequence. -/
def c5TTTRun : Option (TicTacToe × Option Winner) :=
  c5TTTSeq.foldl (fun acc m => acc.bind (fun p => p.1.make_move m))
    (some (TicTacToe.new, none))

/-- Fold of `make_move` along a Connect-Four move sequence. -/
def c5LFRun : Option (LineFourGame × Option Winner) :=
  c5LFSeq.foldl (fun acc m => acc.bind (fun p => p.1.make_move m))
    (some (LineFourGame.new, none))

/-- C5 counterexample.  Both games possess reachable terminal states (reached by a
`make_move` that returned a `Winner`, with `win_state()` present for
Tic-Tac-Toe) on which `moves()` still yields moves: the enumeration ignores
terminal status, so the claim "moves() yields no moves on terminal states" is
false. -/
theorem C5_counterexample :
    c5TTTRun = some ({ game_state := 2147495943 }, some .WIN) ∧
    TicTacToe.win_state { game_state := 2147495943 } = some .WIN ∧
    TicTacToe.movesList { game_state := 2147495943 } ≠ [] ∧
    c5LFRun = some ({ set_by_p1 := 15, set_by_p2 := 448, turn := .P1 }, some .WIN) ∧
    LineFourGame.movesList { set_by_p1 := 15, set_by_p2 := 448, turn := .P1 } ≠ [] := by
  decide

/-- C5 amended.  `moves()` is computed from the occupancy bits alone and ignores
terminal status: the enumeration is empty exactly when the board is full (all
nine cells for Tic-Tac-Toe, all seven top cells for Connect-Four 7×6), so a
terminal state with free cells still yields moves. -/
theorem C5_amended_thm :
    (∀ s : TicTacToe, s.movesList = [] ↔ ∀ i : Fin 9,
      ((TTT.pos_player1 s.game_state).testBit i.val = true ∨
        (TTT.pos_player2 s.game_state).testBit i.val = true)) ∧
    (∀ g : LineFourGame, g.movesList = [] ↔ ∀ i : Fin 7,
      (g.set_by_p1 ||| g.set_by_p2).testBit (i.val * 6 + 5) = true) := by
  constructor
  · intro s
    rw [ttt_movesList_spec s, List.filter_eq_nil_iff]
    constructor
    · intro h i
      have hi := h i (List.mem_finRange i)
      revert hi
      cases hp : (TTT.pos_player1 s.game_state).testBit i.val <;>
        cases hq : (TTT.pos_player2 s.game_state).testBit i.val <;> simp
    · intro h i _
      have hi := h i
      revert hi
      cases hp : (TTT.pos_player1 s.game_state).testBit i.val <;>
        cases hq : (TTT.pos_player2 s.game_state).testBit i.val <;> simp
  · intro g
    rw [lf_movesList_spec g, List.filter_eq_nil_iff]
    constructor
    · intro h i
      have hi := h i (List.mem_finRange i)
      revert hi
      cases hp : (g.set_by_p1 ||| g.set_by_p2).testBit (i.val * 6 + 5) <;> simp
    · intro h i _
      have hi := h i
      revert hi
      cases hp : (g.set_by_p1 ||| g.set_by_p2).testBit (i.val * 6 + 5) <;> simp

/-! ### Claim C6: error conditions of `make_move` -/

/-- C6 counterexample.  After P1 occupies cell 0 (reachable state `game_state = 1`),
it is P2's turn and cell 0 is occupied by P1 — yet `make_move` on cell 0
succeeds, because the code only tests the mover's own board bit.  The claim
"fails iff the chosen cell is already occupied by either player" is false. -/
theorem C6_counterexample :
    TicTacToe.make_move TicTacToe.new ((0 : Fin 9) : TicTacToeMove) =
      some ({ game_state := 1 }, none) ∧
    (TTT.pos_player1 (1 : Nat)).testBit 0 = true ∧
    TTT.get_player (1 : Nat) = TwoPlayer.P2 ∧
    (TicTacToe.make_move { game_state := 1 } ((0 : Fin 9) : TicTacToeMove)).isSome = true := by
  decide

/-- C6 amended.  `make_move` fails exactly on: a Tic-Tac-Toe cell already occupied
by the player to move (a cell occupied only by the opponent is accepted), or a
Connect-Four 7×6 column whose six cells are all occupied; in every other case
it succeeds. -/
theorem C6_amended_thm :
    (∀ (s : TicTacToe) (m : TicTacToeMove),
      s.make_move m = none ↔
        (match s.player with
          | .P1 => (TTT.pos_player1 s.game_state).testBit (m : Fin 9).val
          | .P2 => (TTT.pos_player2 s.game_state).testBit (m : Fin 9).val) = true) ∧
    (∀ (g : LineFourGame) (idx : LineFourIndex),
      g.set_at_index idx = none ↔
        ∀ r : Fin 6,
          (g.set_by_p1 ||| g.set_by_p2).testBit ((idx : Fin 7).val * 6 + r.val) = true) := by
  constructor
  · intro s m
    have hm9 : (m : Fin 9).val < 9 := (m : Fin 9).isLt
    rw [TicTacToe.make_move, TicTacToe.player]
    cases hp : TTT.get_player s.game_state
    · rw [pos_player1_testBit _ _ hm9]
      have : (m : Fin 9).val + 0 = (m : Fin 9).val := by omega
      simp only [this, ← and_one_shiftLeft_pos]
      split
      · simp_all
      · simp_all
    · rw [pos_player2_testBit _ _ hm9]
      simp only [← and_one_shiftLeft_pos]
      split
      · simp_all
      · simp_all
  · intro g idx
    have hcol : (g.set_by_p1 ||| g.set_by_p2) >>> ((idx : Fin 7).val * 6) &&& 63 < 64 :=
      Nat.lt_succ_of_le (Nat.and_le_right)
    have hto : ∀ c : Nat, c < 64 →
        (6 ≤ LF.u64TrailingOnes c ↔ ∀ r : Fin 6, c.testBit r.val = true) := by decide
    have hbit : ∀ r : Fin 6,
        ((g.set_by_p1 ||| g.set_by_p2) >>> ((idx : Fin 7).val * 6) &&& 63).testBit r.val =
          (g.set_by_p1 ||| g.set_by_p2).testBit ((idx : Fin 7).val * 6 + r.val) := by
      intro r
      have h63 : (63 : Nat) = 2 ^ 6 - 1 := by rfl
      rw [Nat.testBit_and, h63, Nat.testBit_two_pow_sub_one, Nat.testBit_shiftRight]
      simp [r.isLt]
    rw [LineFourGame.set_at_index]
    split
    · rename_i hge
      simp only [true_iff]
      intro r
      rw [← hbit r]
      exact ((hto _ hcol).mp hge) r
    · rename_i hlt
      constructor
      · intro hc
        exfalso
        simp only at hc
        split_ifs at hc
      · intro hall
        exfalso
        exact hlt ((hto _ hcol).mpr (fun r => by rw [hbit r]; exact hall r))

end BoardGame

namespace BoardGame

/-! ### Claim C7: Connect-Four win detection -/

/-- Spec-side predicate, written from the claim: the board contains four
consecutive occupied cells vertically, horizontally, or along either diagonal.
Cell (column `c`, row `r`) of the 7×6 board is bit `6*c + r`. -/
def hasFourLine (b : Nat) : Prop :=
  (∃ c < 7, ∃ r < 3, ∀ i < 4, b.testBit (6 * c + (r + i)) = true) ∨
  (∃ c < 4, ∃ r < 6, ∀ i < 4, b.testBit (6 * (c + i) + r) = true) ∨
  (∃ c < 4, ∃ r < 3, ∀ i < 4, b.testBit (6 * (c + i) + (r + i)) = true) ∨
  (∃ c < 4, ∃ r, 3 ≤ r ∧ r < 6 ∧ ∀ i < 4, b.testBit (6 * (c + i) + (r - i)) = true)

/-- Monotonicity of `|||` in its left argument. -/
theorem left_le_or (x y : Nat) : x ≤ x ||| y := by
  refine Nat.le_of_testBit (fun i h => ?_)
  simp [Nat.testBit_or, h]

theorem or_lt_two_pow_of_lt {x y n : Nat} (hx : x < 2 ^ n) (hy : y < 2 ^ n) :
    x ||| y < 2 ^ n :=
  Nat.or_lt_two_pow hx hy

/-- A `u64` left shift by at most 21 of a 42-bit board does not wrap. -/
theorem shl_mod_eq {b : Nat} (s : Nat) (hb : b < 2 ^ 42) (hs : s ≤ 21) :
    (b <<< s) % LF.U64 = b <<< s := by
  apply Nat.mod_eq_of_lt
  have hU : LF.U64 = 2 ^ 64 := by rfl
  rw [hU, Nat.shiftLeft_eq]
  calc b * 2 ^ s < 2 ^ 42 * 2 ^ s := by
        exact Nat.mul_lt_mul_of_lt_of_le hb (Nat.le_refl _) (Nat.pos_pow_of_pos _ (by omega))
    _ ≤ 2 ^ 42 * 2 ^ 21 := Nat.mul_le_mul_left _ (Nat.pow_le_pow_right (by omega) hs)
    _ < 2 ^ 64 := by norm_num

/-- Bit characterization of `VERTICAL_WON`. -/
theorem vertical_mask_char (k : Nat) :
    LF.VERTICAL_WON.testBit k = true ↔ (k < 42 ∧ 3 ≤ k % 6) := by
  constructor
  · intro h
    have hk : k < 42 := by
      by_contra hk
      have hlt : LF.VERTICAL_WON < 2 ^ k := by
        calc LF.VERTICAL_WON < 2 ^ 42 := by norm_num [LF.VERTICAL_WON]
          _ ≤ 2 ^ k := Nat.pow_le_pow_right (by omega) (by omega)
      rw [Nat.testBit_lt_two_pow hlt] at h
      cases h
    have hsmall : ∀ j : Nat, j < 42 → (LF.VERTICAL_WON.testBit j = true → 3 ≤ j % 6) := by decide
    exact ⟨hk, hsmall k hk h⟩
  · intro ⟨hk, hm⟩
    have hsmall : ∀ j : Nat, j < 42 → (3 ≤ j % 6 → LF.VERTICAL_WON.testBit j = true) := by decide
    exact hsmall k hk hm

/-- Bit characterization of `HORIZONTAL_WON`. -/
theorem horizontal_mask_char (k : Nat) :
    LF.HORIZONTAL_WON.testBit k = true ↔ (18 ≤ k ∧ k < 46) := by
  constructor
  · intro h
    have hk : k < 46 := by
      by_contra hk
      have hlt : LF.HORIZONTAL_WON < 2 ^ k := by
        calc LF.HORIZONTAL_WON < 2 ^ 46 := by norm_num [LF.HORIZONTAL_WON]
          _ ≤ 2 ^ k := Nat.pow_le_pow_right (by omega) (by omega)
      rw [Nat.testBit_lt_two_pow hlt] at h
      cases h
    have hsmall : ∀ j : Nat, j < 46 → (LF.HORIZONTAL_WON.testBit j = true → 18 ≤ j) := by decide
    exact ⟨hsmall k hk h, hk⟩
  · intro ⟨h18, hk⟩
    have hsmall : ∀ j : Nat, j < 46 → (18 ≤ j → LF.HORIZONTAL_WON.testBit j = true) := by decide
    exact hsmall k hk h18

/-- Bit characterization of `LTRB_DIAGONAL`. -/
theorem ltrb_mask_char (k : Nat) :
    LF.LTRB_DIAGONAL.testBit k = true ↔ (18 ≤ k ∧ k < 42 ∧ 3 ≤ k % 6) := by
  rw [LF.LTRB_DIAGONAL, Nat.testBit_and, Bool.and_eq_true, vertical_mask_char,
    horizontal_mask_char]
  omega

/-- Bit characterization of `LBRT_DIAGONAL`. -/
theorem lbrt_mask_char (k : Nat) :
    LF.LBRT_DIAGONAL.testBit k = true ↔ (18 ≤ k ∧ k ≤ 38 ∧ k % 6 < 3) := by
  constructor
  · intro h
    have hk : k < 39 := by
      by_contra hk
      have hlt : LF.LBRT_DIAGONAL < 2 ^ k := by
        calc LF.LBRT_DIAGONAL < 2 ^ 39 := by norm_num [LF.LBRT_DIAGONAL]
          _ ≤ 2 ^ k := Nat.pow_le_pow_right (by omega) (by omega)
      rw [Nat.testBit_lt_two_pow hlt] at h
      cases h
    have hsmall : ∀ j : Nat, j < 39 →
        (LF.LBRT_DIAGONAL.testBit j = true → 18 ≤ j ∧ j % 6 < 3) := by decide
    exact ⟨(hsmall k hk h).1, by omega, (hsmall k hk h).2⟩
  · intro ⟨h18, hk, hm⟩
    have hsmall : ∀ j : Nat, j < 39 →
        (18 ≤ j → j % 6 < 3 → LF.LBRT_DIAGONAL.testBit j = true) := by decide
    exact hsmall k (by omega) h18 hm

/-- Positivity of one masked shift-and-AND reduction, characterized by the top
bit `k` of the detected line: stride `a`, shifts `a`, `2a`, `3a`. -/
theorem line_expr_pos_iff (b a M : Nat) (Q : Nat → Prop)
    (hchar : ∀ k, M.testBit k = true ↔ Q k) (hb : b < 2 ^ 42) :
    0 < ((b &&& (b <<< a) &&& (b <<< (2 * a)) &&& (b <<< (3 * a))) &&& M) ↔
      ∃ k, Q k ∧ k < 42 ∧ 3 * a ≤ k ∧ ∀ i < 4, b.testBit (k - i * a) = true := by
  constructor
  · intro hpos
    obtain ⟨k, hbit⟩ := Nat.ne_zero_implies_bit_true (Nat.pos_iff_ne_zero.mp hpos)
    rw [Nat.testBit_and, Nat.testBit_and, Nat.testBit_and, Nat.testBit_and,
      Nat.testBit_shiftLeft, Nat.testBit_shiftLeft, Nat.testBit_shiftLeft] at hbit
    simp only [Bool.and_eq_true, decide_eq_true_eq] at hbit
    obtain ⟨⟨⟨⟨h0, ha, h1⟩, h2a, h2⟩, h3a, h3⟩, hM⟩ := hbit
    have hk42 : k < 42 := by
      by_contra hk
      have : b < 2 ^ k := lt_of_lt_of_le hb (Nat.pow_le_pow_right (by omega) (by omega))
      rw [Nat.testBit_lt_two_pow this] at h0
      cases h0
    refine ⟨k, (hchar k).mp hM, hk42, h3a, ?_⟩
    intro i hi
    interval_cases i
    · simpa using h0
    · simpa using h1
    · simpa using h2
    · simpa using h3
  · intro ⟨k, hQ, _, h3a, hbits⟩
    have hbit : (((b &&& (b <<< a) &&& (b <<< (2 * a)) &&& (b <<< (3 * a))) &&& M)).testBit k
        = true := by
      rw [Nat.testBit_and, Nat.testBit_and, Nat.testBit_and, Nat.testBit_and,
        Nat.testBit_shiftLeft, Nat.testBit_shiftLeft, Nat.testBit_shiftLeft]
      have e0 := hbits 0 (by omega)
      have e1 := hbits 1 (by omega)
      have e2 := hbits 2 (by omega)
      have e3 := hbits 3 (by omega)
      simp only [Nat.zero_mul, Nat.sub_zero, one_mul] at e0 e1 e2 e3
      have d1 : a ≤ k := by omega
      have d2 : 2 * a ≤ k := by omega
      simp only [Bool.and_eq_true, decide_eq_true_eq]
      exact ⟨⟨⟨⟨e0, d1, e1⟩, d2, e2⟩, h3a, e3⟩, (hchar k).mpr hQ⟩
    exact Nat.pos_of_ne_zero (fun h0 => by rw [h0, Nat.zero_testBit] at hbit; cases hbit)

end BoardGame

namespace BoardGame

/-- Vertical direction: detected top bits correspond to spec vertical lines. -/
theorem vertical_iff (b : Nat) :
    (∃ k, (k < 42 ∧ 3 ≤ k % 6) ∧ k < 42 ∧ 3 * 1 ≤ k ∧
        ∀ i < 4, b.testBit (k - i * 1) = true) ↔
      ∃ c < 7, ∃ r < 3, ∀ i < 4, b.testBit (6 * c + (r + i)) = true := by
  constructor
  · intro ⟨k, ⟨hk, hm⟩, _, _, hbits⟩
    refine ⟨k / 6, by omega, k % 6 - 3, by omega, ?_⟩
    intro i hi
    have h4 := hbits (3 - i) (by omega)
    have e : 6 * (k / 6) + (k % 6 - 3 + i) = k - (3 - i) * 1 := by omega
    rw [e]
    exact h4
  · intro ⟨c, hc, r, hr, hbits⟩
    refine ⟨6 * c + r + 3, ⟨by omega, by omega⟩, by omega, by omega, ?_⟩
    intro i hi
    have h4 := hbits (3 - i) (by omega)
    have e : 6 * c + r + 3 - i * 1 = 6 * c + (r + (3 - i)) := by omega
    rw [e]
    exact h4

/-- Horizontal direction. -/
theorem horizontal_iff (b : Nat) :
    (∃ k, (18 ≤ k ∧ k < 46) ∧ k < 42 ∧ 3 * 6 ≤ k ∧
        ∀ i < 4, b.testBit (k - i * 6) = true) ↔
      ∃ c < 4, ∃ r < 6, ∀ i < 4, b.testBit (6 * (c + i) + r) = true := by
  constructor
  · intro ⟨k, ⟨h18, _⟩, hk42, _, hbits⟩
    refine ⟨k / 6 - 3, by omega, k % 6, by omega, ?_⟩
    intro i hi
    have h4 := hbits (3 - i) (by omega)
    have e : 6 * (k / 6 - 3 + i) + k % 6 = k - (3 - i) * 6 := by omega
    rw [e]
    exact h4
  · intro ⟨c, hc, r, hr, hbits⟩
    refine ⟨6 * (c + 3) + r, ⟨by omega, by omega⟩, by omega, by omega, ?_⟩
    intro i hi
    have h4 := hbits (3 - i) (by omega)
    have e : 6 * (c + 3) + r - i * 6 = 6 * (c + (3 - i)) + r := by omega
    rw [e]
    exact h4

/-- Up-right diagonal (stride 7). -/
theorem ltrb_iff (b : Nat) :
    (∃ k, (18 ≤ k ∧ k < 42 ∧ 3 ≤ k % 6) ∧ k < 42 ∧ 3 * 7 ≤ k ∧
        ∀ i < 4, b.testBit (k - i * 7) = true) ↔
      ∃ c < 4, ∃ r < 3, ∀ i < 4, b.testBit (6 * (c + i) + (r + i)) = true := by
  constructor
  · intro ⟨k, ⟨h18, hk42, hm⟩, _, _, hbits⟩
    refine ⟨k / 6 - 3, by omega, k % 6 - 3, by omega, ?_⟩
    intro i hi
    have h4 := hbits (3 - i) (by omega)
    have e : 6 * (k / 6 - 3 + i) + (k % 6 - 3 + i) = k - (3 - i) * 7 := by omega
    rw [e]
    exact h4
  · intro ⟨c, hc, r, hr, hbits⟩
    refine ⟨6 * (c + 3) + (r + 3), ⟨by omega, by omega, by omega⟩, by omega, by omega, ?_⟩
    intro i hi
    have h4 := hbits (3 - i) (by omega)
    have e : 6 * (c + 3) + (r + 3) - i * 7 = 6 * (c + (3 - i)) + (r + (3 - i)) := by omega
    rw [e]
    exact h4

/-- Up-left diagonal (stride 5). -/
theorem lbrt_iff (b : Nat) :
    (∃ k, (18 ≤ k ∧ k ≤ 38 ∧ k % 6 < 3) ∧ k < 42 ∧ 3 * 5 ≤ k ∧
        ∀ i < 4, b.testBit (k - i * 5) = true) ↔
      ∃ c < 4, ∃ r, 3 ≤ r ∧ r < 6 ∧ ∀ i < 4, b.testBit (6 * (c + i) + (r - i)) = true := by
  constructor
  · intro ⟨k, ⟨h18, hk38, hm⟩, _, _, hbits⟩
    refine ⟨k / 6 - 3, by omega, k % 6 + 3, by omega, by omega, ?_⟩
    intro i hi
    have h4 := hbits (3 - i) (by omega)
    have e : 6 * (k / 6 - 3 + i) + (k % 6 + 3 - i) = k - (3 - i) * 5 := by omega
    rw [e]
    exact h4
  · intro ⟨c, hc, r, hr3, hr6, hbits⟩
    refine ⟨6 * (c + 3) + (r - 3), ⟨by omega, by omega, by omega⟩, by omega, by omega, ?_⟩
    intro i hi
    have h4 := hbits (3 - i) (by omega)
    have e : 6 * (c + 3) + (r - 3) - i * 5 = 6 * (c + (3 - i)) + (r - (3 - i)) := by omega
    rw [e]
    exact h4

/-- Full characterization of `has_won_in` on 42-bit boards. -/
theorem has_won_in_iff {b : Nat} (hb : b < 2 ^ 42) :
    LineFourGame.has_won_in b = true ↔ hasFourLine b := by
  have hv := (line_expr_pos_iff b 1 LF.VERTICAL_WON _ vertical_mask_char hb).trans
    (vertical_iff b)
  have hh := (line_expr_pos_iff b 6 LF.HORIZONTAL_WON _ horizontal_mask_char hb).trans
    (horizontal_iff b)
  have hd1 := (line_expr_pos_iff b 7 LF.LTRB_DIAGONAL _ ltrb_mask_char hb).trans
    (ltrb_iff b)
  have hd2 := (line_expr_pos_iff b 5 LF.LBRT_DIAGONAL _ lbrt_mask_char hb).trans
    (lbrt_iff b)
  norm_num at hv hh hd1 hd2
  rw [LineFourGame.has_won_in, shl_mod_eq 1 hb (by omega), shl_mod_eq 2 hb (by omega),
    shl_mod_eq 3 hb (by omega), shl_mod_eq 6 hb (by omega),
    shl_mod_eq 12 hb (by omega), shl_mod_eq 18 hb (by omega),
    shl_mod_eq 7 hb (by omega), shl_mod_eq 14 hb (by omega),
    shl_mod_eq 21 hb (by omega), shl_mod_eq 5 hb (by omega),
    shl_mod_eq 10 hb (by omega), shl_mod_eq 15 hb (by omega)]
  rw [hasFourLine]
  split_ifs with h1 h2 h3 h4
  · simp only [true_iff]
    exact Or.inl (hv.mp h1)
  · simp only [true_iff]
    exact Or.inr (Or.inl (hh.mp h2))
  · simp only [true_iff]
    exact Or.inr (Or.inr (Or.inl (hd1.mp h3)))
  · simp only [true_iff]
    exact Or.inr (Or.inr (Or.inr (hd2.mp h4)))
  · simp only [false_iff]
    intro hline
    rcases hline with hl | hl | hl | hl
    · exact h1 (hv.mpr hl)
    · exact h2 (hh.mpr hl)
    · exact h3 (hd1.mpr hl)
    · exact h4 (hd2.mpr hl)

end BoardGame

namespace BoardGame

/-- Boards of reachable Connect-Four states stay within 42 bits: `set_at_index`
only ever sets a bit below 42.  Together with `new` (both boards zero) this
justifies the 42-bit hypothesis of the win-detection characterization. -/
theorem lf_board_bound_preserved (g : LineFourGame) (idx : LineFourIndex)
    (g2 : LineFourGame) (w : Option Winner)
    (hlt : g.set_by_p1 ||| g.set_by_p2 < 2 ^ 42)
    (h : g.set_at_index idx = some (g2, w)) :
    g2.set_by_p1 ||| g2.set_by_p2 < 2 ^ 42 := by
  rw [LineFourGame.set_at_index] at h
  by_cases hge : LF.u64TrailingOnes ((g.set_by_p1 ||| g.set_by_p2) >>> ((idx : Fin 7).val * 6)
      &&& 63) ≥ 6
  · rw [if_pos hge] at h
    cases h
  · rw [if_neg hge] at h
    simp only at h
    have hsi : LF.u64TrailingOnes ((g.set_by_p1 ||| g.set_by_p2) >>> ((idx : Fin 7).val * 6)
        &&& 63) + (idx : Fin 7).val * 6 < 42 := by
      have := (idx : Fin 7).isLt
      omega
    have hp1 : g.set_by_p1 < 2 ^ 42 := lt_of_le_of_lt (left_le_or _ _) hlt
    have hp2 : g.set_by_p2 < 2 ^ 42 := by
      rw [Nat.or_comm] at hlt
      exact lt_of_le_of_lt (left_le_or _ _) hlt
    have hshift : ∀ p : Nat, p ≤ 1 →
        (p <<< (LF.u64TrailingOnes ((g.set_by_p1 ||| g.set_by_p2) >>> ((idx : Fin 7).val * 6)
          &&& 63) + (idx : Fin 7).val * 6)) % LF.U64 < 2 ^ 42 := by
      intro p hp
      refine lt_of_le_of_lt (Nat.mod_le _ _) ?_
      rw [Nat.shiftLeft_eq]
      calc p * 2 ^ _ ≤ 1 * 2 ^ _ := Nat.mul_le_mul_right _ hp
        _ = 2 ^ _ := one_mul _
        _ < 2 ^ 42 := Nat.pow_lt_pow_right (by omega) hsi
    have hP1 : g.set_by_p1 ||| _ < 2 ^ 42 :=
      or_lt_two_pow_of_lt hp1 (hshift g.turn.toU8 (by cases g.turn <;> decide))
    have hP2 : g.set_by_p2 ||| _ < 2 ^ 42 :=
      or_lt_two_pow_of_lt hp2 (hshift (g.turn.toU8 ^^^ 1) (by cases g.turn <;> decide))
    split_ifs at h <;>
      (rw [Option.some.injEq, Prod.mk.injEq] at h; obtain ⟨hg2, hw⟩ := h; subst hg2;
        exact or_lt_two_pow_of_lt hP1 hP2)

end BoardGame

namespace BoardGame

/-- C7.  On every 42-bit board word (all reachable boards are 42-bit by
`lf_board_bound_preserved`), `has_won_in` holds iff the board contains four
consecutive occupied cells vertically, horizontally, or along either diagonal;
consequently a successful move reports `Winner::WIN` exactly when the mover's
board after placement contains such a line, and `Winner::TIE` exactly when it
does not and all 42 cells are occupied. -/
theorem C7_win_detection :
    (∀ b : Nat, b < 2 ^ 42 → (LineFourGame.has_won_in b = true ↔ hasFourLine b)) ∧
    (∀ (g : LineFourGame) (idx : LineFourIndex) (g2 : LineFourGame) (w : Option Winner),
      g.set_by_p1 ||| g.set_by_p2 < 2 ^ 42 →
      g.set_at_index idx = some (g2, w) →
      ((w = some .WIN ↔
          hasFourLine (match g.turn with | .P1 => g2.set_by_p1 | .P2 => g2.set_by_p2)) ∧
        (w = some .TIE ↔
          (¬ hasFourLine (match g.turn with | .P1 => g2.set_by_p1 | .P2 => g2.set_by_p2) ∧
            g2.set_by_p1 ||| g2.set_by_p2 = LF.TIE_MASK)))) := by
  refine ⟨fun b hb => has_won_in_iff hb, ?_⟩
  intro g idx g2 w hlt h
  have hbound := lf_board_bound_preserved g idx g2 w hlt h
  rw [LineFourGame.set_at_index] at h
  by_cases hge : LF.u64TrailingOnes ((g.set_by_p1 ||| g.set_by_p2) >>> ((idx : Fin 7).val * 6)
      &&& 63) ≥ 6
  · rw [if_pos hge] at h
    cases h
  · rw [if_neg hge] at h
    simp only at h
    cases hturn : g.turn
    · rw [hturn] at h
      simp only [TwoPlayer.toU8, if_true] at h
      split_ifs at h with hwin htie
      · rw [Option.some.injEq, Prod.mk.injEq] at h
        obtain ⟨hg2, hw⟩ := h
        subst hg2
        subst hw
        have hb2 := lt_of_le_of_lt (left_le_or _ _) hbound
        have hline := (has_won_in_iff hb2).mp hwin
        exact ⟨⟨fun _ => hline, fun _ => rfl⟩,
          ⟨fun hww => absurd (Option.some.inj hww) (by decide),
            fun hand => absurd hline hand.1⟩⟩
      · rw [Option.some.injEq, Prod.mk.injEq] at h
        obtain ⟨hg2, hw⟩ := h
        subst hg2
        subst hw
        have hb2 := lt_of_le_of_lt (left_le_or _ _) hbound
        have hnoline := fun hl => hwin ((has_won_in_iff hb2).mpr hl)
        have htie2 := htie
        rw [Nat.or_comm] at htie2
        exact ⟨⟨fun hww => absurd (Option.some.inj hww) (by decide),
            fun hl => absurd hl hnoline⟩,
          ⟨fun _ => ⟨hnoline, htie2⟩, fun _ => rfl⟩⟩
      · rw [Option.some.injEq, Prod.mk.injEq] at h
        obtain ⟨hg2, hw⟩ := h
        subst hg2
        subst hw
        have hb2 := lt_of_le_of_lt (left_le_or _ _) hbound
        have hnoline := fun hl => hwin ((has_won_in_iff hb2).mpr hl)
        have htie2 : ¬ _ := htie
        rw [Nat.or_comm] at htie2
        exact ⟨⟨fun hww => Option.noConfusion hww, fun hl => absurd hl hnoline⟩,
          ⟨fun hww => Option.noConfusion hww, fun hand => absurd hand.2 htie2⟩⟩
    · rw [hturn] at h
      simp only [TwoPlayer.toU8, Nat.zero_ne_one, if_false] at h
      split_ifs at h with hwin htie
      · rw [Option.some.injEq, Prod.mk.injEq] at h
        obtain ⟨hg2, hw⟩ := h
        subst hg2
        subst hw
        have hbound2 := hbound
        rw [Nat.or_comm] at hbound2
        have hb2 := lt_of_le_of_lt (left_le_or _ _) hbound2
        have hline := (has_won_in_iff hb2).mp hwin
        exact ⟨⟨fun _ => hline, fun _ => rfl⟩,
          ⟨fun hww => absurd (Option.some.inj hww) (by decide),
            fun hand => absurd hline hand.1⟩⟩
      · rw [Option.some.injEq, Prod.mk.injEq] at h
        obtain ⟨hg2, hw⟩ := h
        subst hg2
        subst hw
        have hbound2 := hbound
        rw [Nat.or_comm] at hbound2
        have hb2 := lt_of_le_of_lt (left_le_or _ _) hbound2
        have hnoline := fun hl => hwin ((has_won_in_iff hb2).mpr hl)
        have htie2 := htie
        rw [Nat.or_comm] at htie2
        exact ⟨⟨fun hww => absurd (Option.some.inj hww) (by decide),
            fun hl => absurd hl hnoline⟩,
          ⟨fun _ => ⟨hnoline, htie2⟩, fun _ => rfl⟩⟩
      · rw [Option.some.injEq, Prod.mk.injEq] at h
        obtain ⟨hg2, hw⟩ := h
        subst hg2
        subst hw
        have hbound2 := hbound
        rw [Nat.or_comm] at hbound2
        have hb2 := lt_of_le_of_lt (left_le_or _ _) hbound2
        have hnoline := fun hl => hwin ((has_won_in_iff hb2).mpr hl)
        have htie2 : ¬ _ := htie
        rw [Nat.or_comm] at htie2
        exact ⟨⟨fun hww => Option.noConfusion hww, fun hl => absurd hl hnoline⟩,
          ⟨fun hww => Option.noConfusion hww, fun hand => absurd hand.2 htie2⟩⟩

end BoardGame

namespace BoardGame

/-- Witness for C7 at concrete inputs: board 15 (a vertical four in column 0) and
the move that completes it from `⟨7, 448, P1⟩`. -/
theorem C7_win_detection_witness :
    (LineFourGame.has_won_in 15 = true ↔ hasFourLine 15) ∧
    ((some Winner.WIN = some Winner.WIN ↔ hasFourLine 15) ∧
      (some Winner.WIN = some Winner.TIE ↔
        (¬ hasFourLine 15 ∧ (15 : Nat) ||| 448 = LF.TIE_MASK))) :=
  ⟨C7_win_detection.1 15 (by norm_num),
    C7_win_detection.2 { set_by_p1 := 7, set_by_p2 := 448, turn := .P1 } (0 : Fin 7)
      { set_by_p1 := 15, set_by_p2 := 448, turn := .P1 } (some .WIN)
      (by decide) (by decide)⟩

end BoardGame

namespace BoardGame

/-! ### Node arena (`monte_carlo_v2/arena.rs`)

Handles are `usize` values (`Nat` here); the sentinel `ArenaHandle::invalid()`
is `usize::MAX`.  A chunk owns 64 `MaybeUninit` slots, modelled as
`List (Option T)` of length 64 where `none` is uninitialized storage, plus the
occupancy bitmap `used : u64`. -/

/-- One 64-slot chunk. -/
structure ArenaChunk (T : Type) where
  used : Nat
  content : List (Option T)

/-- Embedding of `Chunk::new` (fresh uninitialized storage, empty bitmap). -/
def ArenaChunk.new (T : Type) : ArenaChunk T :=
  { used := 0, content := List.replicate 64 none }

/-- The node arena: chunk list plus the `last_free` cursor. -/
structure Arena (T : Type) where
  content : List (ArenaChunk T)
  last_free : Nat

/-- Embedding of `Arena::new`. -/
def Arena.new (T : Type) : Arena T :=
  { content := [ArenaChunk.new T], last_free := 0 }

/-- Embedding of `ArenaHandle::invalid()` (`usize::MAX`). -/
def arenaInvalidHandle : Nat := 18446744073709551615

/-- The scan loop of `Arena::insert` over `content[last_free..]`: returns the
updated suffix, the relative chunk offset `i` and the written slot, or `none`
when every scanned chunk is full (`trailing_ones = 64`). -/
def arenaScan {T : Type} (item : T) : List (ArenaChunk T) →
    Option (List (ArenaChunk T) × Nat × Nat)
  | [] => none
  | c :: rest =>
    let slot := LF.u64TrailingOnes c.used
    if slot < 64 then
      some (({ used := c.used ||| (1 <<< slot),
               content := c.content.set slot (some item) } : ArenaChunk T) :: rest, 0, slot)
    else
      (arenaScan item rest).map (fun r => (c :: r.1, r.2.1 + 1, r.2.2))

/-- Embedding of `Arena::insert`; returns the arena and the handle
`last_free * 64 | slot`. -/
def Arena.insert {T : Type} (a : Arena T) (item : T) : Arena T × Nat :=
  let lf := min a.last_free a.content.length
  match arenaScan item (a.content.drop lf) with
  | some r =>
    ({ content := a.content.take lf ++ r.1, last_free := lf + r.2.1 },
      (lf + r.2.1) * 64 ||| r.2.2)
  | none =>
    let newChunk : ArenaChunk T :=
      { used := 0 ||| 1, content := (List.replicate 64 (none : Option T)).set 0 (some item) }
    ({ content := a.content ++ [newChunk], last_free := a.content.length },
      a.content.length * 64)

/-- Embedding of `Arena::get` (`assume_init_ref` reads the stored slot). -/
def Arena.get {T : Type} (a : Arena T) (handle : Nat) : Option T :=
  let chunk_idx := handle / 64
  let slot_idx := handle % 64
  match a.content.get? chunk_idx with
  | none => none
  | some chunk =>
    if chunk.used &&& (1 <<< slot_idx) > 0 then
      (chunk.content.get? slot_idx).bind id
    else
      none

/-- Embedding of `Arena::get_mut` followed by writing `f` to the slot; `none`
models a failed lookup. -/
def Arena.modify {T : Type} (a : Arena T) (handle : Nat) (f : T → T) : Option (Arena T) :=
  let chunk_idx := handle / 64
  let slot_idx := handle % 64
  match a.content.get? chunk_idx with
  | none => none
  | some chunk =>
    if chunk.used &&& (1 <<< slot_idx) > 0 then
      match (chunk.content.get? slot_idx).bind id with
      | none => none
      | some v =>
        let chunk2 : ArenaChunk T :=
          { chunk with content := chunk.content.set slot_idx (some (f v)) }
        some { a with content := a.content.set chunk_idx chunk2 }
    else
      none

/-- Embedding of `Arena::purge`: every chunk is cleared (occupants dropped,
bitmap zeroed, capacity retained), `last_free` reset. -/
def Arena.purge {T : Type} (a : Arena T) : Arena T :=
  { content := a.content.map (fun _ => ArenaChunk.new T), last_free := 0 }

/-- Sequence of `Arena::insert` calls, collecting the handles in order. -/
def Arena.insertMany {T : Type} : Arena T → List T → Arena T × List Nat
  | a, [] => (a, [])
  | a, v :: vs =>
    let r := a.insert v
    let rest := r.1.insertMany vs
    (rest.1, r.2 :: rest.2)

/-- Well-formedness: every chunk owns exactly 64 slots (true of every arena the
code ever constructs). -/
def Arena.WF {T : Type} (a : Arena T) : Prop :=
  ∀ (j : Nat) (c : ArenaChunk T), a.content.get? j = some c → c.content.length = 64

end BoardGame

namespace BoardGame

/-- The fuel recursion behind `trailing_ones` never reports a set bit below its
result when the result is within fuel. -/
theorem u64TrailingOnes_go_bit : ∀ (f x : Nat), LF.u64TrailingOnes.go f x < f →
    x.testBit (LF.u64TrailingOnes.go f x) = false := by
  intro f
  induction f with
  | zero => intro x h; omega
  | succ f ih =>
    intro x h
    rw [LF.u64TrailingOnes.go] at h ⊢
    by_cases hx : x % 2 = 1
    · rw [if_pos hx] at h ⊢
      rw [Nat.testBit_add_one]
      exact ih (x / 2) (by omega)
    · rw [if_neg hx] at h ⊢
      rw [Nat.testBit_zero]
      simp [hx]

/-- The slot found by the insert scan has a clear occupancy bit. -/
theorem u64TrailingOnes_bit (x : Nat) (h : LF.u64TrailingOnes x < 64) :
    x.testBit (LF.u64TrailingOnes x) = false :=
  u64TrailingOnes_go_bit 64 x h

/-- Specification of the `Arena::insert` scan loop. -/
theorem arenaScan_spec {T : Type} (item : T) :
    ∀ (l l2 : List (ArenaChunk T)) (i s : Nat),
      arenaScan item l = some (l2, i, s) →
      s < 64 ∧ i < l.length ∧ l2.length = l.length ∧
      (∀ j, j ≠ i → l2.get? j = l.get? j) ∧
      ∃ c, l.get? i = some c ∧ c.used.testBit s = false ∧
        l2.get? i = some (ArenaChunk.mk (c.used ||| (1 <<< s)) (c.content.set s (some item))) := by
  intro l
  induction l with
  | nil => intro l2 i s h; cases h
  | cons c rest ih =>
    intro l2 i s h
    rw [arenaScan] at h
    by_cases hs : LF.u64TrailingOnes c.used < 64
    · rw [if_pos hs, Option.some.injEq] at h
      rw [Prod.mk.injEq, Prod.mk.injEq] at h
      obtain ⟨h1, h2, h3⟩ := h
      subst h1
      subst h2
      subst h3
      refine ⟨hs, by simp, by simp, ?_, c, by simp, u64TrailingOnes_bit _ hs, by simp⟩
      intro j hj
      cases j with
      | zero => exact absurd rfl hj
      | succ j => simp
    · rw [if_neg hs] at h
      cases hr : arenaScan item rest with
      | none => rw [hr] at h; cases h
      | some r2 =>
        rw [hr, Option.map_some'] at h
        rw [Option.some.injEq, Prod.mk.injEq, Prod.mk.injEq] at h
        obtain ⟨h1, h2, h3⟩ := h
        obtain ⟨h64, hlen, hleneq, hother, c2, hc2, hbit, hupd⟩ :=
          ih r2.1 r2.2.1 r2.2.2 (by rw [hr])
        subst h1
        subst h3
        refine ⟨h64, ?_, by simpa using hleneq, ?_, c2, ?_, hbit, ?_⟩
        · simp only [List.length_cons]
          omega
        · intro j hj
          cases j with
          | zero => simp
          | succ j =>
            simp only [List.get?_cons_succ]
            exact hother j (by omega)
        · rw [← h2]
          simpa using hc2
        · rw [← h2]
          simpa using hupd

end BoardGame

namespace BoardGame

/-- A handle `i * 64 ||| s` with `s < 64` decodes back to chunk `i`, slot `s`. -/
theorem handle_encode_decode (i s : Nat) (hs : s < 64) :
    (i * 64 ||| s) / 64 = i ∧ (i * 64 ||| s) % 64 = s := by
  have h1 : s < 2 ^ 6 := lt_of_lt_of_le hs (by norm_num)
  have hor : i * 64 + s = i * 64 ||| s := by
    have h2 := Nat.mul_add_lt_is_or h1 i
    norm_num at h2
    rw [Nat.mul_comm 64 i] at h2
    exact h2
  rw [← hor]
  omega

/-- Freshly inserted values read back under the returned handle. -/
theorem Arena.get_insert_self {T : Type} (a : Arena T) (x : T) (hwf : a.WF) :
    (a.insert x).1.get (a.insert x).2 = some x := by
  rw [Arena.insert]
  cases hscan : arenaScan x (a.content.drop (min a.last_free a.content.length)) with
  | some r =>
    obtain ⟨hs64, hi, hlen, hother, c, hc, hbit, hupd⟩ :=
      arenaScan_spec x _ r.1 r.2.1 r.2.2 (by rw [hscan])
    simp only
    rw [Arena.get]
    obtain ⟨hdiv, hmod⟩ := handle_encode_decode (min a.last_free a.content.length + r.2.1)
      r.2.2 hs64
    simp only [hdiv, hmod]
    have hlf : min a.last_free a.content.length ≤ a.content.length := by omega
    have htake : (a.content.take (min a.last_free a.content.length)).length =
        min a.last_free a.content.length := by
      simp [hlf]
    have hget : (a.content.take (min a.last_free a.content.length) ++ r.1).get?
        (min a.last_free a.content.length + r.2.1) = r.1.get? r.2.1 := by
      rw [List.get?_append_right (by omega)]
      congr 1
      omega
    rw [hget, hupd]
    simp only
    have hbit2 : (c.used ||| 1 <<< r.2.2).testBit r.2.2 = true := by
      rw [Nat.testBit_or, hbit]
      have : (1 : Nat) <<< r.2.2 = 2 ^ r.2.2 := by rw [Nat.shiftLeft_eq, one_mul]
      rw [this, Nat.testBit_two_pow_self]
      rfl
    rw [if_pos ((and_one_shiftLeft_pos _ _).mpr hbit2)]
    have hclen : c.content.length = 64 := by
      refine hwf (min a.last_free a.content.length + r.2.1) c ?_
      rw [← hc, ← List.get?_drop]
    rw [List.get?_set_eq_of_lt _ (by omega)]
    rfl
  | none =>
    simp only
    rw [Arena.get]
    have hdm : a.content.length * 64 / 64 = a.content.length ∧
        a.content.length * 64 % 64 = 0 := by omega
    rw [hdm.1, hdm.2]
    rw [List.get?_append_right (by omega)]
    simp

/-- Previously stored values survive an insert. -/
theorem Arena.get_insert_other {T : Type} (a : Arena T) (x : T) (h : Nat) (v : T)
    (hget : a.get h = some v) : (a.insert x).1.get h = some v := by
  rw [Arena.get] at hget
  cases hch : a.content.get? (h / 64) with
  | none => rw [hch] at hget; cases hget
  | some c =>
    rw [hch] at hget
    simp only at hget
    by_cases hbit : 0 < c.used &&& (1 <<< (h % 64))
    swap
    · rw [if_neg hbit] at hget; cases hget
    rw [if_pos hbit] at hget
    rw [Arena.insert]
    cases hscan : arenaScan x (a.content.drop (min a.last_free a.content.length)) with
    | some r =>
      obtain ⟨hs64, hi, hlen, hother, c2, hc2, hbit2, hupd⟩ :=
        arenaScan_spec x _ r.1 r.2.1 r.2.2 (by rw [hscan])
      simp only
      rw [Arena.get]
      have hlf : min a.last_free a.content.length ≤ a.content.length := by omega
      have hchlen : h / 64 < a.content.length := by
        by_contra hc3
        rw [(List.get?_eq_none).mpr (by omega)] at hch
        cases hch
      by_cases hleft : h / 64 < min a.last_free a.content.length
      · rw [List.get?_append (by simp [hlf]; omega), List.get?_take hleft, hch]
        simp only
        rw [if_pos hbit]
        exact hget
      · have hsplit : (a.content.take (min a.last_free a.content.length) ++ r.1).get? (h / 64)
            = r.1.get? (h / 64 - min a.last_free a.content.length) := by
          rw [List.get?_append_right (by simp [hlf]; omega)]
          congr 1
          simp [hlf]
        rw [hsplit]
        by_cases hsame : h / 64 - min a.last_free a.content.length = r.2.1
        · rw [hsame, hupd]
          have hcc : c2 = c := by
            have he2 : min a.last_free a.content.length +
                (h / 64 - min a.last_free a.content.length) = h / 64 := by omega
            rw [← he2, ← List.get?_drop, hsame] at hch
            rw [hch] at hc2
            exact (Option.some.inj hc2).symm
          subst hcc
          simp only
          have hslot : h % 64 ≠ r.2.2 := by
            intro he
            rw [he] at hbit
            rw [(and_one_shiftLeft_pos _ _)] at hbit
            rw [hbit] at hbit2
            cases hbit2
          have hbor : 0 < (c2.used ||| 1 <<< r.2.2) &&& (1 <<< (h % 64)) := by
            rw [and_one_shiftLeft_pos] at hbit ⊢
            rw [Nat.testBit_or, hbit]
            rfl
          rw [if_pos hbor, List.get?_set_ne _ _ (fun he => hslot he.symm)]
          exact hget
        · rw [hother _ hsame, List.get?_drop]
          have he2 : min a.last_free a.content.length +
              (h / 64 - min a.last_free a.content.length) = h / 64 := by omega
          rw [he2, hch]
          simp only
          rw [if_pos hbit]
          exact hget
    | none =>
      simp only
      rw [Arena.get]
      have hchlen : h / 64 < a.content.length := by
        by_contra hc3
        rw [(List.get?_eq_none).mpr (by omega)] at hch
        cases hch
      rw [List.get?_append hchlen, hch]
      simp only
      rw [if_pos hbit]
      exact hget

end BoardGame

namespace BoardGame

/-- The fresh arena is well formed. -/
theorem Arena.WF_new (T : Type) : (Arena.new T).WF := by
  intro j c h
  rw [Arena.new] at h
  cases j with
  | zero =>
    simp only [List.get?_cons_zero, Option.some.injEq] at h
    rw [← h, ArenaChunk.new]
    simp
  | succ j => simp at h

/-- Insert preserves well-formedness. -/
theorem Arena.WF_insert {T : Type} (a : Arena T) (x : T) (hwf : a.WF) :
    (a.insert x).1.WF := by
  rw [Arena.insert]
  cases hscan : arenaScan x (a.content.drop (min a.last_free a.content.length)) with
  | some r =>
    obtain ⟨hs64, hi, hlen, hother, c2, hc2, hbit2, hupd⟩ :=
      arenaScan_spec x _ r.1 r.2.1 r.2.2 (by rw [hscan])
    intro j c h
    simp only at h
    have hlf : min a.last_free a.content.length ≤ a.content.length := by omega
    by_cases hleft : j < min a.last_free a.content.length
    · rw [List.get?_append (by simp [hlf]; omega), List.get?_take hleft] at h
      exact hwf j c h
    · rw [List.get?_append_right (by simp [hlf]; omega)] at h
      have he : (a.content.take (min a.last_free a.content.length)).length =
          min a.last_free a.content.length := by simp [hlf]
      rw [he] at h
      by_cases hsame : j - min a.last_free a.content.length = r.2.1
      · rw [hsame, hupd, Option.some.injEq] at h
        have hc2len : c2.content.length = 64 := by
          refine hwf (min a.last_free a.content.length + r.2.1) c2 ?_
          rw [← hc2, ← List.get?_drop]
        rw [← h]
        simp [hc2len]
      · rw [hother _ hsame, List.get?_drop] at h
        exact hwf _ c h
  | none =>
    intro j c h
    simp only at h
    by_cases hin : j < a.content.length
    · rw [List.get?_append hin] at h
      exact hwf j c h
    · rw [List.get?_append_right (by omega)] at h
      cases he : j - a.content.length with
      | zero =>
        rw [he] at h
        simp only [List.get?_cons_zero, Option.some.injEq] at h
        rw [← h]
        simp
      | succ k => rw [he] at h; simp at h

/-- Insert adds at most one chunk. -/
theorem Arena.insert_length {T : Type} (a : Arena T) (x : T) :
    (a.insert x).1.content.length ≤ a.content.length + 1 := by
  rw [Arena.insert]
  cases hscan : arenaScan x (a.content.drop (min a.last_free a.content.length)) with
  | some r =>
    obtain ⟨_, _, hlen, _, _⟩ := arenaScan_spec x _ r.1 r.2.1 r.2.2 (by rw [hscan])
    simp only [List.length_append, List.length_take, hlen, List.length_drop]
    omega
  | none =>
    simp

/-- Stored values survive any number of further inserts. -/
theorem Arena.insertMany_preserves {T : Type} :
    ∀ (vs : List T) (a : Arena T) (h : Nat) (v : T), a.get h = some v →
      (a.insertMany vs).1.get h = some v := by
  intro vs
  induction vs with
  | nil => intro a h v hget; exact hget
  | cons x vs ih =>
    intro a h v hget
    rw [Arena.insertMany]
    exact ih _ _ _ (Arena.get_insert_other a x h v hget)

/-- Well-formedness survives `insertMany`. -/
theorem Arena.insertMany_WF {T : Type} :
    ∀ (vs : List T) (a : Arena T), a.WF → (a.insertMany vs).1.WF := by
  intro vs
  induction vs with
  | nil => intro a hwf; exact hwf
  | cons x vs ih => intro a hwf; exact ih _ (Arena.WF_insert a x hwf)

/-- Chunk-count bound for `insertMany`. -/
theorem Arena.insertMany_length {T : Type} :
    ∀ (vs : List T) (a : Arena T),
      (a.insertMany vs).1.content.length ≤ a.content.length + vs.length := by
  intro vs
  induction vs with
  | nil => intro a; simp [Arena.insertMany]
  | cons x vs ih =>
    intro a
    rw [Arena.insertMany]
    have h1 := ih (a.insert x).1
    have h2 := Arena.insert_length a x
    simp only [List.length_cons]
    omega

/-- Round trip for handle `i` of an `insertMany` run. -/
theorem Arena.insertMany_get {T : Type} :
    ∀ (vs : List T) (a : Arena T), a.WF → ∀ i, i < vs.length →
      ((a.insertMany vs).1).get (((a.insertMany vs).2).getD i 0) = vs.get? i := by
  intro vs
  induction vs with
  | nil => intro a _ i hi; simp at hi
  | cons x vs ih =>
    intro a hwf i hi
    rw [Arena.insertMany]
    cases i with
    | zero =>
      simp only [List.getD_cons_zero, List.get?_cons_zero]
      exact Arena.insertMany_preserves vs _ _ _ (Arena.get_insert_self a x hwf)
    | succ i =>
      simp only [List.getD_cons_succ, List.get?_cons_succ]
      exact ih _ (Arena.WF_insert a x hwf) i (by simpa using hi)

/-- After `purge` every lookup is absent. -/
theorem Arena.get_purge {T : Type} (a : Arena T) (h : Nat) : a.purge.get h = none := by
  rw [Arena.purge, Arena.get]
  simp only [List.get?_map]
  cases a.content.get? (h / 64) with
  | none => rfl
  | some c =>
    simp only [Option.map_some']
    rw [ArenaChunk.new]
    simp

/-- The invalid sentinel handle resolves to nothing on any arena with fewer than
`2^58` chunks. -/
theorem Arena.get_invalid {T : Type} (a : Arena T)
    (hlen : a.content.length ≤ 288230376151711742) :
    a.get arenaInvalidHandle = none := by
  rw [Arena.get]
  have hdiv : arenaInvalidHandle / 64 = 288230376151711743 := by rw [arenaInvalidHandle]
  rw [hdiv, (List.get?_eq_none).mpr (by omega)]

/-- `Arena::get_mut` performs the same chunk/bitmap lookup as `Arena::get`:
whenever `get` is absent, `get_mut` (modelled as `modify`) is absent too,
for every mutation — never a panic. -/
theorem Arena.modify_eq_none_of_get {T : Type} (a : Arena T) (h : Nat) (f : T → T)
    (hg : a.get h = none) : a.modify h f = none := by
  rw [Arena.get] at hg
  rw [Arena.modify]
  cases hc : a.content.get? (h / 64) with
  | none => simp only [hc]
  | some chunk =>
    simp only [hc] at hg ⊢
    by_cases hb : chunk.used &&& (1 <<< (h % 64)) > 0
    · rw [if_pos hb] at hg ⊢
      rw [hg]
    · rw [if_neg hb]

end BoardGame

namespace BoardGame

/-- C8.  Node arena contract: every handle returned by a sequence of inserts with
no intervening purge reads back the inserted value; after `purge()` every
lookup (any handle whatsoever, in particular every previously issued one) is
absent, through `get` and through `get_mut` alike; and for every arena the
scanned sequence can build, the invalid sentinel handle (`usize::MAX`) is
absent rather than a panic, again for `get` and for `get_mut` with any
mutation. -/
theorem C8_arena_contract (T : Type) (vs : List T) :
    (∀ i, i < vs.length →
      ((Arena.new T).insertMany vs).1.get ((((Arena.new T).insertMany vs).2).getD i 0) =
        vs.get? i) ∧
    (∀ h, (((Arena.new T).insertMany vs).1.purge).get h = none) ∧
    (∀ h (f : T → T), (((Arena.new T).insertMany vs).1.purge).modify h f = none) ∧
    (vs.length ≤ 288230376151711741 →
      ((Arena.new T).insertMany vs).1.get arenaInvalidHandle = none ∧
      ∀ f : T → T,
        ((Arena.new T).insertMany vs).1.modify arenaInvalidHandle f = none) := by
  have hinv : vs.length ≤ 288230376151711741 →
      ((Arena.new T).insertMany vs).1.get arenaInvalidHandle = none := by
    intro hlen
    refine Arena.get_invalid _ ?_
    have h1 := Arena.insertMany_length vs (Arena.new T)
    have h2 : (Arena.new T).content.length = 1 := by rw [Arena.new]; rfl
    omega
  refine ⟨?_, ?_, ?_, ?_⟩
  · intro i hi
    exact Arena.insertMany_get vs (Arena.new T) (Arena.WF_new T) i hi
  · intro h
    exact Arena.get_purge _ h
  · intro h f
    exact Arena.modify_eq_none_of_get _ h f (Arena.get_purge _ h)
  · intro hlen
    exact ⟨hinv hlen,
      fun f => Arena.modify_eq_none_of_get _ _ f (hinv hlen)⟩

/-- Witness for C8 at a concrete input: two inserted numbers read back, purge
empties both lookup paths, and the sentinel is absent for `get` and for a
concrete mutation through `get_mut`. -/
theorem C8_arena_contract_witness :
    (((Arena.new Nat).insertMany [10, 20]).1.get
        ((((Arena.new Nat).insertMany [10, 20]).2).getD 1 0) = some 20) ∧
    ((((Arena.new Nat).insertMany [10, 20]).1.purge).get 1 = none) ∧
    ((((Arena.new Nat).insertMany [10, 20]).1.purge).modify 1 (fun n => n + 1) = none) ∧
    (((Arena.new Nat).insertMany [10, 20]).1.get arenaInvalidHandle = none) ∧
    (((Arena.new Nat).insertMany [10, 20]).1.modify arenaInvalidHandle
        (fun n => n + 1) = none) :=
  ⟨by
      have h := (C8_arena_contract Nat [10, 20]).1 1 (by decide)
      simpa using h,
    (C8_arena_contract Nat [10, 20]).2.1 1,
    (C8_arena_contract Nat [10, 20]).2.2.1 1 (fun n => n + 1),
    ((C8_arena_contract Nat [10, 20]).2.2.2 (by decide)).1,
    ((C8_arena_contract Nat [10, 20]).2.2.2 (by decide)).2 (fun n => n + 1)⟩

end BoardGame

namespace BoardGame

/-! ### Slice arena (`monte_carlo_v2/moves_buffer.rs`)

A page is a `Vec<T>`: modelled as capacity plus contents.  `pageElems` models
the per-type constant `PAGE_SIZE / size_of::<T>()` (512 for the module's own
`u64` test).  `Vec::extend` may grow a page beyond its initial capacity; the
embedding keeps `cap ≥ data.length`, which is all later inserts observe. -/

/-- One page of the slice arena. -/
structure SliceChunk (T : Type) where
  cap : Nat
  data : List T
deriving Repr

/-- A slice handle (`chunk_idx`, `start_idx`, `len`). -/
structure SliceHandle where
  chunk_idx : Nat
  start_idx : Nat
  len : Nat
deriving DecidableEq, Repr

/-- Embedding of `SliceHandle::empty`. -/
def SliceHandle.empty : SliceHandle := { chunk_idx := 0, start_idx := 0, len := 0 }

/-- Embedding of `alloc_chunk`. -/
def allocChunk (T : Type) (pageElems required : Nat) : SliceChunk T :=
  { cap := max pageElems required, data := [] }

/-- The slice arena: a list of pages. -/
structure SliceArena (T : Type) where
  chunks : List (SliceChunk T)

/-- Embedding of `SliceArena::new`. -/
def SliceArena.new (T : Type) (pageElems : Nat) : SliceArena T :=
  { chunks := [allocChunk T pageElems 0] }

/-- The `while let Some(next) = insert.next()` loop of `SliceArena::insert`:
push while spare capacity remains; the element that finds no capacity is the
loop's `next` binding (returned list = elements still inside the iterator
after it, mirroring that `next` itself is never pushed). -/
def sliceFill {T : Type} (cap : Nat) : List T → List T → List T × Option (List T)
  | data, [] => (data, none)
  | data, e :: es =>
    if cap - data.length > 0 then sliceFill cap (data ++ [e]) es else (data, some es)

/-- Embedding of `SliceArena::insert`.  `min_size` is `insert.size_hint().0` and
`elems` the full element sequence the iterator yields. -/
def SliceArena.insert {T : Type} (pageElems : Nat) (a : SliceArena T)
    (min_size : Nat) (elems : List T) : SliceArena T × SliceHandle :=
  let chunks := if a.chunks.isEmpty then a.chunks ++ [allocChunk T pageElems 0] else a.chunks
  let li := chunks.length - 1
  let cur := (chunks.get? li).getD (allocChunk T pageElems 0)
  let starting_len := cur.data.length
  if min_size ≤ cur.cap - cur.data.length then
    match sliceFill cur.cap cur.data elems with
    | (data2, none) =>
      let updated : SliceChunk T := { cur with data := data2 }
      let chunks2 := chunks.set li updated
      let handle : SliceHandle :=
        { chunk_idx := li, start_idx := starting_len, len := data2.length - starting_len }
      (⟨chunks2⟩, handle)
    | (data2, some rest) =>
      let migrated := data2.drop starting_len
      let newData := migrated ++ rest
      let newChunk : SliceChunk T :=
        { cap := max (max pageElems 0) newData.length, data := newData }
      let rewound : SliceChunk T := { cur with data := data2.take starting_len }
      let chunks2 := chunks.set li rewound ++ [newChunk]
      let handle : SliceHandle :=
        { chunk_idx := chunks2.length - 1, start_idx := 0, len := newData.length }
      (⟨chunks2⟩, handle)
  else
    let newChunk : SliceChunk T :=
      { cap := max (max pageElems min_size) elems.length, data := elems }
    let chunks2 := chunks ++ [newChunk]
    let handle : SliceHandle :=
      { chunk_idx := chunks2.length - 1, start_idx := 0, len := elems.length }
    (⟨chunks2⟩, handle)

/-- Embedding of `SliceArena::get` (`chunk.get(start..start+len)`). -/
def SliceArena.get {T : Type} (a : SliceArena T) (h : SliceHandle) : Option (List T) :=
  match a.chunks.get? h.chunk_idx with
  | none => none
  | some c =>
    if h.start_idx + h.len ≤ c.data.length then
      some ((c.data.drop h.start_idx).take h.len)
    else
      none

/-- Embedding of `SliceArena::get_mut` followed by an in-place update of one
element of the slice. -/
def SliceArena.setElem {T : Type} (a : SliceArena T) (h : SliceHandle) (off : Nat)
    (v : T) : Option (SliceArena T) :=
  match a.chunks.get? h.chunk_idx with
  | none => none
  | some c =>
    if h.start_idx + h.len ≤ c.data.length then
      if off < h.len then
        some ⟨a.chunks.set h.chunk_idx { c with data := c.data.set (h.start_idx + off) v }⟩
      else
        none
    else
      none

/-- Embedding of `SliceArena::clear`. -/
def SliceArena.clear {T : Type} (a : SliceArena T) : SliceArena T :=
  ⟨a.chunks.map (fun c => { c with data := [] })⟩

/-- C9 evaluation at a failing input.  On a fresh arena whose page holds two
elements (a type of more than 2 KiB, `pageElems = 4096 / size_of::<T>() = 2`),
inserting an iterator with size-hint lower bound 0 that yields four elements
runs out of capacity mid-append: the two partially appended elements are
migrated to a fresh page, but the element in the loop's hand (`next`, here
`30`) is never pushed, so the handle reads back `[10, 20, 40]` instead of the
produced `[10, 20, 30, 40]`.  The in-place path (the module's own `u64` unit
test, `pageElems = 512`) is included for contrast. -/
theorem C9_insert_migration_drops_element :
    (((SliceArena.new Nat 2).insert 2 0 [10, 20, 30, 40]).1.get
        ((SliceArena.new Nat 2).insert 2 0 [10, 20, 30, 40]).2 = some [10, 20, 40]) ∧
    ([10, 20, 40] ≠ [10, 20, 30, 40]) ∧
    (((SliceArena.new Nat 512).insert 512 4 [1, 2, 3, 4]).1.get
        ((SliceArena.new Nat 512).insert 512 4 [1, 2, 3, 4]).2 = some [1, 2, 3, 4]) := by
  refine ⟨by decide, by decide, by decide⟩

end BoardGame

namespace BoardGame

/-! ### MCTS engine (`monte_carlo_v2/impl4.rs`)

Modelling notes.

The embedding is generic over the game (the Rust code is generic over
`T: MonteCarloGame`): a game is a pair of functions `moves`/`make_move`
mirroring the trait.  `f64` scores are exact rationals; `f64::ln` and
`f64::sqrt` are oracle parameters (a `FloatOracle`).  `SmallRng` is modelled
as two streams of draws: `chooseStream` feeds `SliceRandom::choose` (a draw
`k` on a slice of length `n` selects index `k % n`, consumed only on
non-empty slices, exactly as `choose`), and `floatStream` feeds
`gen_range(0.0..=h)` (a draw `q` yields `min (max q 0) h`, consumed on every
call).  `Rc<T>` is a plain value; the `unused_rcs` recycling pool only reuses
allocations and is modelled as the list of drained states.  The descent loop
of `playoff` and the work-buffer loop of `backtrack_from_leaf` take a fuel
argument; every verified run supplies more fuel than it consumes.  A `none`
result models a Rust panic (`unwrap`/`expect`). -/

/-- The game-trait surface used by `impl4.rs` (`MonteCarloGame`). -/
structure GameFns (S M : Type) where
  moves : S → List M
  make_move : S → M → Option (S × Option Winner)

/-- Oracle for the two `f64` transcendental operations the engine uses. -/
structure FloatOracle where
  ln : ℚ → ℚ
  sqrt : ℚ → ℚ

/-- Embedding of `CompactPred<T>` (two inline ids or a spilled vector). -/
inductive CompactPred where
  | LessThanThree (id0 id1 : Nat)
  | MoreOrEqThree (content : List Nat)
deriving DecidableEq, Repr

/-- Embedding of `CompactPred::push`. -/
def CompactPred.push (p : CompactPred) (id : Nat) : CompactPred :=
  match p with
  | .LessThanThree id0 id1 =>
    if id1 = arenaInvalidHandle then .LessThanThree id0 id
    else .MoreOrEqThree [id0, id1, id]
  | .MoreOrEqThree content => .MoreOrEqThree (content ++ [id])

/-- Embedding of `CompactPred::iter`. -/
def CompactPred.iter (p : CompactPred) : List Nat :=
  match p with
  | .LessThanThree id0 id1 =>
    if id0 = arenaInvalidHandle then []
    else if id1 = arenaInvalidHandle then [id0]
    else [id0, id1]
  | .MoreOrEqThree c => c

/-- Embedding of `MCNode<T>`. -/
structure MCNode (S : Type) where
  predecessors : CompactPred
  moves : SliceHandle
  game_state : S
  visited_amount : Nat
  score_balance : ℚ
  completely_computed : Bool
deriving DecidableEq

/-- Embedding of `MCContext<T>` plus the modelled RNG streams. -/
structure MCContext (S M : Type) where
  mappings : List (S × Nat)
  node_store : Arena (MCNode S)
  unused_rcs : List S
  move_store : SliceArena (Nat × M)
  chooseStream : List Nat
  floatStream : List ℚ

/-- Lookup in the transposition map (`FxHashMap::get`). -/
def mapLookup {S : Type} [DecidableEq S] (m : List (S × Nat)) (s : S) : Option Nat :=
  (m.find? (fun p => decide (p.1 = s))).map (fun p => p.2)

/-- Embedding of `MCContext::alloc_node` (arena insert + transposition entry;
`HashMap::insert` replaces an existing key). -/
def alloc_node {S M : Type} [DecidableEq S] (ctx : MCContext S M) (node : MCNode S) :
    MCContext S M × Nat :=
  let node_game := node.game_state
  let r := ctx.node_store.insert node
  let mappings2 := (node_game, r.2) :: ctx.mappings.eraseP (fun p => decide (p.1 = node_game))
  ({ ctx with
      node_store := r.1,
      mappings := mappings2 },
    r.2)

/-- One `choose` draw: selects an index of a nonempty list. -/
def drawChoose {S M : Type} (ctx : MCContext S M) (n : Nat) : Nat × MCContext S M :=
  (ctx.chooseStream.headD 0 % n, { ctx with chooseStream := ctx.chooseStream.tail })

/-- One `gen_range(0.0..=h)` draw. -/
def drawFloat {S M : Type} (ctx : MCContext S M) (h : ℚ) : ℚ × MCContext S M :=
  (min (max (ctx.floatStream.headD 0) 0) h, { ctx with floatStream := ctx.floatStream.tail })

/-- Embedding of `select_next`: partition the moves into `existing`
(non-solved expanded children, in move order) and `not_existing` (indices of
unexpanded moves); random unexpanded pick if any; otherwise the clamped
prefix-sum roulette over `(win/visited) + sqrt(p_score/visited)` with
`p_score = c * ln(parent.visited_amount)`, returning the first prefix
`≤ rng_value` — an index into `existing`, which the caller uses as an index
into the full move list. -/
def select_next {S M : Type} (or : FloatOracle) (ctx : MCContext S M)
    (parent : MCNode S) (moves : List (Nat × M)) (c : ℚ) :
    Option Nat × MCContext S M :=
  let part := moves.enum.foldl
    (fun (acc : List (MCNode S) × List Nat) im =>
      match ctx.node_store.get im.2.1 with
      | some e => if e.completely_computed then acc else (acc.1 ++ [e], acc.2)
      | none => (acc.1, acc.2 ++ [im.1]))
    ([], [])
  let existing := part.1
  let not_existing := part.2
  if not_existing.isEmpty then
    let p_score := c * or.ln ((parent.visited_amount : ℚ))
    let scores := (existing.foldl
      (fun (acc : List ℚ × ℚ) node =>
        let visited : ℚ := (node.visited_amount : ℚ)
        let win_score := node.score_balance
        let score := win_score / visited + or.sqrt (p_score / visited)
        let score := if score < 0 then 0 else score
        let highest := acc.2 + score
        (acc.1 ++ [highest], highest))
      ([], 0))
    let r := drawFloat ctx scores.2
    ((scores.1.enum.find? (fun is => decide (is.2 ≤ r.1))).map (fun is => is.1), r.2)
  else
    let r := drawChoose ctx not_existing.length
    (some (not_existing.getD r.1 0), r.2)

/-- Embedding of `compute_initial_score`. -/
def compute_initial_score (win_state : Option Winner) : Bool × ℚ :=
  match win_state with
  | none => (false, 0)
  | some .TIE => (true, 0)
  | some .WIN => (true, 1)

/-- Embedding of `new_node_entry`.  The inserted move iterator has an exact size
hint for every game in the repository, so `min_size` is the move count. -/
def new_node_entry {S M : Type} [DecidableEq S] (G : GameFns S M) (pe : Nat)
    (parent_id : Nat) (game_state : S) (winner : Option Winner)
    (ctx : MCContext S M) : MCContext S M × Nat :=
  let il := compute_initial_score winner
  let ctx2 :=
    if ¬ il.1 then
      let mvs := (G.moves game_state).map (fun mov => (arenaInvalidHandle, mov))
      let r := ctx.move_store.insert pe mvs.length mvs
      ({ ctx with move_store := r.1 }, r.2)
    else
      (ctx, SliceHandle.empty)
  let new_node : MCNode S :=
    { predecessors := .LessThanThree parent_id arenaInvalidHandle,
      moves := ctx2.2,
      game_state := game_state,
      visited_amount := 1,
      score_balance := il.2,
      completely_computed := il.1 }
  let r := alloc_node ctx2.1 new_node
  (r.1, r.2)

/-- Patch `moves[next_move_i].0 = next_id` on the current node's move slice
(the `get_mut` chain in `playoff`). -/
def patchMoveSlot {S M : Type} (ctx : MCContext S M) (movesH : SliceHandle)
    (next_move_i : Nat) (next_id : Nat) (mov : M) : Option (MCContext S M) :=
  (ctx.move_store.setElem movesH next_move_i (next_id, mov)).map
    (fun ms => { ctx with move_store := ms })

/-- The descent loop of `playoff` (fuel-bounded); returns the node where the
descent stopped.  `none` models a panic. -/
def playoffLoop {S M : Type} [DecidableEq S] (G : GameFns S M) (or : FloatOracle)
    (pe : Nat) : Nat → MCContext S M → Nat → Nat → Option (Nat × MCContext S M)
  | 0, _, _, _ => none
  | fuel + 1, ctx, current_id, player_num => do
    let node ← ctx.node_store.get current_id
    let moves_ref ← ctx.move_store.get node.moves
    let sel := select_next or ctx node moves_ref 2
    let ctx := sel.2
    match sel.1 with
    | none => some (current_id, ctx)
    | some next_move_i => do
      let next_move ← moves_ref.get? next_move_i
      match ctx.node_store.get next_move.1 with
      | some _ => playoffLoop G or pe fuel ctx next_move.1 ((player_num + 1) % 2)
      | none => do
        let mw ← G.make_move node.game_state next_move.2
        let ctx ←
          if mw.2 = some Winner.WIN ∧ player_num = 0 then
            (ctx.node_store.modify current_id
              (fun n => { n with completely_computed := true })).map
              (fun ns => { ctx with node_store := ns })
          else
            some ctx
        match mapLookup ctx.mappings mw.1 with
        | some next_id => do
          let ctx ← patchMoveSlot ctx node.moves next_move_i next_id next_move.2
          let ctx ← (ctx.node_store.modify next_id
            (fun n => { n with predecessors := n.predecessors.push current_id })).map
            (fun ns => { ctx with node_store := ns })
          playoffLoop G or pe fuel ctx next_id ((player_num + 1) % 2)
        | none => do
          let recycled := { ctx with unused_rcs := ctx.unused_rcs.tail }
          let r := new_node_entry G pe current_id mw.1 mw.2 recycled
          let ctx ← patchMoveSlot r.1 node.moves next_move_i r.2 next_move.2
          playoffLoop G or pe fuel ctx r.2 ((player_num + 1) % 2)

/-- Embedding of the local `compute_completely_computed` of
`backtrack_from_leaf`. -/
def compute_completely_computed {S M : Type} (node : MCNode S)
    (ctx : MCContext S M) : Bool :=
  match ctx.move_store.get node.moves with
  | some moves =>
    moves.all (fun idm =>
      match ctx.node_store.get idm.1 with
      | some n => n.completely_computed
      | none => false)
  | none => true

/-- Phase 1 of `backtrack_from_leaf`: process the immediate predecessors
(entries queued with the leaf's raw score), collecting the entries they
append for the second phase. -/
def backPhase1 {S M : Type} (ctx : MCContext S M) :
    List (Nat × ℚ × Bool) → Option (MCContext S M × List (Nat × ℚ × Bool))
  | [] => some (ctx, [])
  | (node_id, score, _) :: rest => do
    let second_level ← ctx.node_store.get node_id
    let new_cc := compute_completely_computed second_level ctx
    let ns ← ctx.node_store.modify node_id
      (fun n => { n with
        completely_computed := n.completely_computed || new_cc,
        score_balance := n.score_balance - score,
        visited_amount := n.visited_amount + 1 })
    let ctx2 := { ctx with node_store := ns }
    let updatedCC := second_level.completely_computed || new_cc
    let appended := second_level.predecessors.iter.map (fun pred => (pred, score, updatedCC))
    let r ← backPhase1 ctx2 rest
    some (r.1, appended ++ r.2)

/-- Phase 2 of `backtrack_from_leaf`: the `while let Some(..) = buf.pop()` loop
(the stack is kept top-first here, so `pop` is `head`). -/
def backLoop {S M : Type} : Nat → MCContext S M → List (Nat × ℚ × Bool) →
    Option (MCContext S M)
  | _, ctx, [] => some ctx
  | 0, _, _ :: _ => none
  | fuel + 1, ctx, (next, score, check_cc) :: rest => do
    let node ← ctx.node_store.get next
    let new_cc := if check_cc then compute_completely_computed node ctx else false
    let score2 := score / (node.moves.len : ℚ)
    let ns ← ctx.node_store.modify next
      (fun n => { n with
        completely_computed := n.completely_computed || new_cc,
        score_balance := n.score_balance + score2,
        visited_amount := n.visited_amount + 1 })
    let ctx2 := { ctx with node_store := ns }
    let updatedCC := node.completely_computed || new_cc
    backLoop fuel ctx2
      ((node.predecessors.iter.map (fun pred => (pred, -score2, updatedCC))).reverse ++ rest)

/-- Embedding of `backtrack_from_leaf`. -/
def backtrack_from_leaf {S M : Type} (fuel : Nat) (ctx : MCContext S M)
    (leaf : Nat) : Option (MCContext S M) := do
  let leafNode ← ctx.node_store.get leaf
  let buf0 := leafNode.predecessors.iter.map (fun pred => (pred, leafNode.score_balance, true))
  let r ← backPhase1 ctx buf0
  backLoop fuel r.1 r.2.reverse

/-- Embedding of `playoff` (descent then backpropagation; `player_count = 2`). -/
def playoff {S M : Type} [DecidableEq S] (G : GameFns S M) (or : FloatOracle)
    (pe : Nat) (fuelL fuelB : Nat) (root : Nat) (ctx : MCContext S M) :
    Option (MCContext S M) := do
  let r ← playoffLoop G or pe fuelL ctx root 0
  backtrack_from_leaf fuelB r.2 r.1

/-- The playoff budget loop of `select_move`. -/
def runPlayoffs {S M : Type} [DecidableEq S] (G : GameFns S M) (or : FloatOracle)
    (pe : Nat) (fuelL fuelB : Nat) (root : Nat) :
    Nat → MCContext S M → Option (MCContext S M)
  | 0, ctx => some ctx
  | n + 1, ctx => do
    let ctx2 ← playoff G or pe fuelL fuelB root ctx
    runPlayoffs G or pe fuelL fuelB root n ctx2

/-- The final root-move selection of `select_move` (lines 115–124):
`filter_map` over the root moves keeping expanded children, then Rust's
`max_by` on the mean (`max_by` keeps the LAST of equally-maximal elements). -/
def chooseBest {S M : Type} (ctx : MCContext S M) (root_moves : List (Nat × M)) :
    Option M :=
  let pairs := root_moves.filterMap (fun idm =>
    (ctx.node_store.get idm.1).map
      (fun n => (n.score_balance / (n.visited_amount : ℚ), idm.2)))
  (pairs.foldl (fun acc p =>
    match acc with
    | none => some p
    | some a => if a.1 > p.1 then some a else some p) none).map (fun p => p.2)

/-- Embedding of `select_move`: reset the carry, create the root, run the
playoff budget, pick the best root move. -/
def select_move {S M : Type} [DecidableEq S] (G : GameFns S M) (or : FloatOracle)
    (pe : Nat) (fuelL fuelB : Nat) (state : S) (times : Nat)
    (ctx : MCContext S M) : Option (M × MCContext S M) := do
  let ctx := { ctx with
    node_store := ctx.node_store.purge,
    move_store := ctx.move_store.clear,
    unused_rcs := ctx.unused_rcs ++ ctx.mappings.map (fun (p : S × Nat) => p.1),
    mappings := [] }
  let mvs := (G.moves state).map (fun mov => (arenaInvalidHandle, mov))
  let rm := ctx.move_store.insert pe mvs.length mvs
  let root_node : MCNode S :=
    { predecessors := .LessThanThree arenaInvalidHandle arenaInvalidHandle,
      moves := rm.2,
      game_state := state,
      visited_amount := 0,
      score_balance := 0,
      completely_computed := false }
  let ra := alloc_node { ctx with move_store := rm.1 } root_node
  let ctx ← runPlayoffs G or pe fuelL fuelB ra.2 times ra.1
  let root ← ctx.node_store.get ra.2
  let root_moves ← ctx.move_store.get root.moves
  let m ← chooseBest ctx root_moves
  some (m, ctx)

end BoardGame

namespace BoardGame

/-! ### Claim C2: tree-policy selection -/

/-- Spec-side UCT score from the claim:
`mean_score(child) + sqrt(c² · ln(max(parent_visits,1)) / child_visits)`. -/
def uctScore {S : Type} (or : FloatOracle) (cSq : ℚ) (parentVisits : Nat)
    (n : MCNode S) : ℚ :=
  n.score_balance / (n.visited_amount : ℚ) +
    or.sqrt (cSq * or.ln ((max parentVisits 1 : Nat) : ℚ) / (n.visited_amount : ℚ))

/-- Spec-side selection from the claim: the first move index maximizing the UCT
score over children whose solved flag is false. -/
def uctArgmaxFirst {S M : Type} (or : FloatOracle) (cSq : ℚ) (ctx : MCContext S M)
    (parent : MCNode S) (moves : List (Nat × M)) : Option Nat :=
  let cand := moves.enum.filterMap (fun im =>
    (ctx.node_store.get im.2.1).bind (fun n =>
      if n.completely_computed then none
      else some (im.1, uctScore or cSq parent.visited_amount n)))
  (cand.foldl (fun acc p =>
    match acc with
    | none => some p
    | some a => if p.2 > a.2 then some p else some a) none).map (fun p => p.1)

/-- The non-solved expanded children of a move list, in move order. -/
def survivingChildren {S M : Type} (ctx : MCContext S M) (moves : List (Nat × M)) :
    List (MCNode S) :=
  moves.filterMap (fun p =>
    (ctx.node_store.get p.1).bind (fun n => if n.completely_computed then none else some n))

/-- The clamped per-child roulette scores actually used by the code
(`max 0 (mean + sqrt(c·ln(parent_visits)/visits))`). -/
def rouletteScores {S : Type} (or : FloatOracle) (c : ℚ) (parentVisits : Nat)
    (children : List (MCNode S)) : List ℚ :=
  children.map (fun n =>
    max 0 (n.score_balance / (n.visited_amount : ℚ) +
      or.sqrt (c * or.ln ((parentVisits : Nat) : ℚ) / (n.visited_amount : ℚ))))

/-- Prefix sums (`s_i = Σ_{j ≤ i} score_j`). -/
def prefixSums (l : List ℚ) : List ℚ :=
  (List.range l.length).map (fun i => (l.take (i + 1)).sum)

/-- The partition loop of `select_next`, characterized: the accumulated
`existing` is the non-solved expanded children and `not_existing` the indices
of unexpanded moves. -/
theorem select_next_partition {S M : Type} (ctx : MCContext S M) :
    ∀ (l : List (Nat × M)) (k : Nat) (acc : List (MCNode S) × List Nat),
      (l.enumFrom k).foldl
        (fun (acc : List (MCNode S) × List Nat) im =>
          match ctx.node_store.get im.2.1 with
          | some e => if e.completely_computed then acc else (acc.1 ++ [e], acc.2)
          | none => (acc.1, acc.2 ++ [im.1]))
        acc =
      (acc.1 ++ survivingChildren ctx l,
        acc.2 ++ (l.enumFrom k).filterMap
          (fun im => if (ctx.node_store.get im.2.1).isSome then none else some im.1)) := by
  intro l
  induction l with
  | nil => intro k acc; simp [survivingChildren]
  | cons p rest ih =>
    intro k acc
    rw [List.enumFrom_cons]
    simp only [List.foldl_cons, List.filterMap_cons, survivingChildren]
    cases hg : ctx.node_store.get p.1 with
    | none =>
      simp only [Option.isSome_none]
      rw [ih (k + 1) _]
      simp [survivingChildren, List.filterMap_cons, hg]
    | some e =>
      cases hcc : e.completely_computed with
      | true =>
        simp only
        rw [ih (k + 1) _]
        simp [survivingChildren, List.filterMap_cons, hg, hcc]
      | false =>
        simp only
        rw [ih (k + 1) _]
        simp [survivingChildren, List.filterMap_cons, hg, hcc]

/-- The score loop of `select_next`, characterized: it produces the prefix sums
(offset by the accumulator) and the running total. -/
theorem select_next_scores {S : Type} (or : FloatOracle) (p_score : ℚ) :
    ∀ (children : List (MCNode S)) (pre : List ℚ) (h : ℚ),
      children.foldl
        (fun (acc : List ℚ × ℚ) node =>
          let visited : ℚ := (node.visited_amount : ℚ)
          let win_score := node.score_balance
          let score := win_score / visited + or.sqrt (p_score / visited)
          let score := if score < 0 then 0 else score
          let highest := acc.2 + score
          (acc.1 ++ [highest], highest))
        (pre, h) =
      (pre ++ (List.range children.length).map (fun i =>
          h + ((children.map (fun n =>
            max 0 (n.score_balance / (n.visited_amount : ℚ) +
              or.sqrt (p_score / (n.visited_amount : ℚ))))).take (i + 1)).sum),
        h + (children.map (fun n =>
          max 0 (n.score_balance / (n.visited_amount : ℚ) +
            or.sqrt (p_score / (n.visited_amount : ℚ))))).sum) := by
  intro children
  induction children with
  | nil => intro pre h; simp
  | cons n rest ih =>
    intro pre h
    simp only [List.foldl_cons, List.map_cons]
    have hmax : ∀ q : ℚ, (if q < 0 then 0 else q) = max 0 q := by
      intro q
      rcases lt_or_le q 0 with hq | hq
      · rw [if_pos hq, max_eq_left (le_of_lt hq)]
      · rw [if_neg (not_lt.mpr hq), max_eq_right hq]
    rw [hmax, ih, Prod.mk.injEq]
    constructor
    · rw [List.append_assoc]
      congr 1
      rw [List.length_cons, List.range_succ_eq_map, List.map_cons, List.map_map,
        List.singleton_append]
      congr 1
      · simp
      · refine List.map_congr_left ?_
        intro i _
        simp only [Function.comp_apply, List.take_succ_cons, List.sum_cons]
        ring
    · rw [List.sum_cons]
      ring

end BoardGame

namespace BoardGame

/-- Spec description of what the code actually does at a fully expanded node:
clamped scores of the surviving (non-solved) children in move order, a draw
in `[0, Σ scores]`, and the FIRST index whose prefix sum is `≤` the draw. -/
def rouletteChoice {S M : Type} (or : FloatOracle) (ctx : MCContext S M)
    (parent : MCNode S) (moves : List (Nat × M)) (c : ℚ) : Option Nat :=
  let scores := rouletteScores or c parent.visited_amount (survivingChildren ctx moves)
  let draw := min (max (ctx.floatStream.headD 0) 0) scores.sum
  ((prefixSums scores).enum.find? (fun p => decide (p.2 ≤ draw))).map (fun p => p.1)

/-- C2 amended.  At a node all of whose outgoing moves have expanded successors,
`select_next` does NOT pick a UCT argmax: it forms the clamped scores
`max 0 (mean + sqrt(c·ln(parent_visits)/visits))` of the non-solved children
in move order, draws `r` uniformly from `[0, Σ scores]`, and returns the first
position whose prefix sum is `≤ r` (an index into the filtered child list,
which the caller then uses as an index into the full move list); when every
child is solved (or no prefix sum is `≤ r`) it returns `none` and the descent
ends at this node. -/
theorem C2_amended_thm (S M : Type) (or : FloatOracle) (ctx : MCContext S M)
    (parent : MCNode S) (moves : List (Nat × M)) (c : ℚ)
    (hexp : ∀ p ∈ moves, (ctx.node_store.get p.1).isSome = true) :
    (select_next or ctx parent moves c).1 = rouletteChoice or ctx parent moves c ∧
    ((∀ p ∈ moves, ∀ n, ctx.node_store.get p.1 = some n → n.completely_computed = true) →
      (select_next or ctx parent moves c).1 = none) := by
  have hnx : (moves.enumFrom 0).filterMap
      (fun im => if (ctx.node_store.get im.2.1).isSome then none else some im.1) = [] := by
    rw [List.filterMap_eq_nil_iff]
    intro a ha
    have hmem : a.2 ∈ moves := by
      rw [← List.enumFrom_map_snd 0 moves]
      exact List.mem_map_of_mem _ ha
    rw [if_pos (hexp a.2 hmem)]
  have hmain : (select_next or ctx parent moves c).1 = rouletteChoice or ctx parent moves c := by
    rw [select_next, rouletteChoice]
    simp only
    rw [show moves.enum = moves.enumFrom 0 from rfl]
    rw [select_next_partition ctx moves 0 ([], [])]
    rw [hnx]
    simp only [List.nil_append, List.isEmpty_nil, if_true]
    simp only [select_next_scores or (c * or.ln ((parent.visited_amount : ℚ)))]
    simp only [List.nil_append, drawFloat, zero_add, rouletteScores, prefixSums,
      List.length_map]
  refine ⟨hmain, ?_⟩
  intro hsolved
  have hsc : survivingChildren ctx moves = [] := by
    rw [survivingChildren, List.filterMap_eq_nil_iff]
    intro p hp
    cases hg : ctx.node_store.get p.1 with
    | none => rfl
    | some n =>
      simp [hsolved p hp n hg]
  rw [hmain, rouletteChoice, hsc]
  rfl

end BoardGame

namespace BoardGame

/-! ### Claim C1: final root-move selection -/

/-- The (mean, move) pairs of the expanded root children, in move order (the
`filter_map`+`map` of `select_move`'s final phase). -/
def chooseBestPairs {S M : Type} (ctx : MCContext S M) (root_moves : List (Nat × M)) :
    List (ℚ × M) :=
  root_moves.filterMap (fun idm =>
    (ctx.node_store.get idm.1).map
      (fun n => (n.score_balance / (n.visited_amount : ℚ), idm.2)))

/-- Rust's `Iterator::max_by` on the first component: the fold keeps the LATER
element whenever the comparison is not `Greater`. -/
def maxByLast {M : Type} (pairs : List (ℚ × M)) : Option (ℚ × M) :=
  pairs.foldl (fun acc p =>
    match acc with
    | none => some p
    | some a => if a.1 > p.1 then some a else some p) none

/-- The final selection of `select_move` is exactly `max_by` over the pairs. -/
theorem chooseBest_eq {S M : Type} (ctx : MCContext S M)
    (root_moves : List (Nat × M)) :
    chooseBest ctx root_moves = (maxByLast (chooseBestPairs ctx root_moves)).map
      (fun p => p.2) := rfl

/-- The `max_by` fold starting from a seed never returns `none`. -/
theorem maxByLast_from_some {M : Type} :
    ∀ (l : List (ℚ × M)) (a : ℚ × M),
      ∃ p, l.foldl (fun acc p =>
        match acc with
        | none => some p
        | some a => if a.1 > p.1 then some a else some p) (some a) = some p := by
  intro l
  induction l with
  | nil => intro a; exact ⟨a, rfl⟩
  | cons x rest ih =>
    intro a
    rw [List.foldl_cons]
    by_cases hc : a.1 > x.1
    · simp only [hc, if_true]
      exact ih a
    · simp only [hc, if_false]
      exact ih x

/-- Characterization of Rust's `max_by`: the result is an element attaining the
maximal key, and every element strictly after it has a strictly smaller key
(on ties the later element wins). -/
theorem maxByLast_spec {M : Type} :
    ∀ (l : List (ℚ × M)) (p : ℚ × M),
      maxByLast l = some p →
      ∃ k, l.get? k = some p ∧
        (∀ j q, l.get? j = some q → q.1 ≤ p.1) ∧
        (∀ j q, k < j → l.get? j = some q → q.1 < p.1) := by
  intro l
  induction l using List.reverseRecOn with
  | nil => intro p h; cases h
  | append_singleton rest x ih =>
    intro p h
    rw [maxByLast, List.foldl_append, List.foldl_cons, List.foldl_nil] at h
    cases hm : maxByLast rest with
    | none =>
      have hrest : rest = [] := by
        cases rest with
        | nil => rfl
        | cons y t =>
          rw [maxByLast, List.foldl_cons] at hm
          obtain ⟨q, hq⟩ := maxByLast_from_some t y
          rw [hq] at hm
          cases hm
      subst hrest
      rw [List.foldl_nil] at h
      simp only at h
      rw [Option.some.injEq] at h
      subst h
      refine ⟨0, by simp, ?_, ?_⟩
      · intro j q hq
        cases j with
        | zero => simp at hq; rw [hq]
        | succ j => simp at hq
      · intro j q hj hq
        cases j with
        | zero => omega
        | succ j => simp at hq
    | some a =>
      rw [maxByLast] at hm
      rw [hm] at h
      simp only at h
      obtain ⟨k, hk, hle, hlt⟩ := ih a hm
      have hkrest : k < rest.length := by
        by_contra hc
        rw [(List.get?_eq_none).mpr (by omega)] at hk
        cases hk
      by_cases hgt : a.1 > x.1
      · rw [if_pos hgt, Option.some.injEq] at h
        subst h
        refine ⟨k, ?_, ?_, ?_⟩
        · rw [List.get?_append hkrest]
          exact hk
        · intro j q hq
          by_cases hj : j < rest.length
          · rw [List.get?_append hj] at hq
            exact hle j q hq
          · rw [List.get?_append_right (by omega)] at hq
            cases hjl : j - rest.length with
            | zero =>
              rw [hjl] at hq
              simp only [List.get?_cons_zero, Option.some.injEq] at hq
              rw [← hq]
              exact le_of_lt hgt
            | succ jj => rw [hjl] at hq; simp at hq
        · intro j q hj hq
          by_cases hjr : j < rest.length
          · rw [List.get?_append hjr] at hq
            exact hlt j q hj hq
          · rw [List.get?_append_right (by omega)] at hq
            cases hjl : j - rest.length with
            | zero =>
              rw [hjl] at hq
              simp only [List.get?_cons_zero, Option.some.injEq] at hq
              rw [← hq]
              exact hgt
            | succ jj => rw [hjl] at hq; simp at hq
      · rw [if_neg hgt, Option.some.injEq] at h
        subst h
        have hax : a.1 ≤ x.1 := le_of_not_lt hgt
        refine ⟨rest.length, ?_, ?_, ?_⟩
        · rw [List.get?_append_right (by omega)]
          simp
        · intro j q hq
          by_cases hj : j < rest.length
          · rw [List.get?_append hj] at hq
            exact le_trans (hle j q hq) hax
          · rw [List.get?_append_right (by omega)] at hq
            cases hjl : j - rest.length with
            | zero =>
              rw [hjl] at hq
              simp only [List.get?_cons_zero, Option.some.injEq] at hq
              rw [← hq]
            | succ jj => rw [hjl] at hq; simp at hq
        · intro j q hj hq
          by_cases hjr : j < rest.length
          · omega

          · rw [List.get?_append_right (by omega)] at hq
            cases hjl : j - rest.length with
            | zero => omega
            | succ jj => rw [hjl] at hq; simp at hq

/-- C1 amended.  The move returned by the final selection of `select_move` is the
move of the LAST entry attaining the maximal mean score among root children
expanded at least once (Rust's `max_by` keeps the later element on ties);
visit counts are never consulted. -/
theorem C1_amended_thm (S M : Type) (ctx : MCContext S M)
    (root_moves : List (Nat × M)) (m : M)
    (h : chooseBest ctx root_moves = some m) :
    ∃ k q, (chooseBestPairs ctx root_moves).get? k = some (q, m) ∧
      (∀ j p, (chooseBestPairs ctx root_moves).get? j = some p → p.1 ≤ q) ∧
      (∀ j p, k < j → (chooseBestPairs ctx root_moves).get? j = some p → p.1 < q) := by
  rw [chooseBest_eq] at h
  rw [Option.map_eq_some'] at h
  obtain ⟨p, hp, hm⟩ := h
  obtain ⟨k, hk, hle, hlt⟩ := maxByLast_spec _ p hp
  refine ⟨k, p.1, ?_, hle, hlt⟩
  rw [hk]
  rw [← hm]

end BoardGame

namespace BoardGame

/-! ### Concrete MCTS instances used to exercise the engine

The float oracles agree with IEEE `f64` on every point the runs below actually
consult (`ln 1 = 0`, `sqrt 0 = 0`) and return an arbitrary junk value
elsewhere; running the same scenario under two oracles with different junk
values shows the junk is never consulted. -/

def orT : FloatOracle :=
  { ln := fun q => if q = 1 then 0 else 37, sqrt := fun q => if q = 0 then 0 else 37 }

def orT99 : FloatOracle :=
  { ln := fun q => if q = 1 then 0 else 99, sqrt := fun q => if q = 0 then 0 else 99 }

/-- A fresh engine context with prescribed RNG draw streams. -/
def freshCtx (S M : Type) (pe : Nat) (cs : List Nat) (fs : List ℚ) : MCContext S M :=
  { mappings := [], node_store := Arena.new _, unused_rcs := [],
    move_store := SliceArena.new _ pe, chooseStream := cs, floatStream := fs }

/-- A standalone node with the given state, visit count, balance and flag. -/
def testNode (gs v : Nat) (b : ℚ) (cc : Bool) : MCNode Nat :=
  { predecessors := .LessThanThree arenaInvalidHandle arenaInvalidHandle,
    moves := SliceHandle.empty, game_state := gs, visited_amount := v,
    score_balance := b, completely_computed := cc }

/-- Store with two unsolved children: handle 0 (mean 0) and handle 1 (mean 1/2). -/
def twoChildStore : Arena (MCNode Nat) :=
  (((Arena.new (MCNode Nat)).insert (testNode 0 2 0 false)).1.insert
    (testNode 1 2 1 false)).1

def c2Ctx : MCContext Nat Nat :=
  { freshCtx Nat Nat 64 [] [0] with node_store := twoChildStore }

def c2Parent : MCNode Nat := testNode 99 1 0 false

def c2Moves : List (Nat × Nat) := [(0, 0), (1, 1)]

unseal Rat.add Rat.mul Rat.inv Rat.sub in
/-- C2 counterexample.  Parent visited once, child of move 0 has mean 0, child
of move 1 has mean 1/2, both unsolved, both expanded; the oracles agree with
`f64` on the only points consulted (`ln 1 = 0`, `sqrt 0 = 0`).  The UCT argmax
of the claim is move 1, but `select_next` draws `0` from `[0, 1/2]` and takes
the FIRST prefix sum `≤ 0`, returning position 0 — roulette-wheel selection,
not argmax.  The result is unchanged under a different junk value, so it does
not depend on the unconsulted oracle points. -/
theorem C2_counterexample :
    ((c2Ctx.node_store.get 0).map
      (fun n => (n.visited_amount, n.score_balance, n.completely_computed))
      = some (2, 0, false)) ∧
    ((c2Ctx.node_store.get 1).map
      (fun n => (n.visited_amount, n.score_balance, n.completely_computed))
      = some (2, 1, false)) ∧
    c2Parent.visited_amount = 1 ∧
    orT.ln 1 = 0 ∧ orT.sqrt 0 = 0 ∧
    uctArgmaxFirst orT 2 c2Ctx c2Parent c2Moves = some 1 ∧
    (select_next orT c2Ctx c2Parent c2Moves 2).1 = some 0 ∧
    (select_next orT99 c2Ctx c2Parent c2Moves 2).1 = some 0 := by decide

/-- Witness for the amended C2 theorem at the concrete fully-expanded node. -/
theorem C2_amended_thm_witness :
    (select_next orT c2Ctx c2Parent c2Moves 2).1 =
      rouletteChoice orT c2Ctx c2Parent c2Moves 2 ∧
    ((∀ p ∈ c2Moves, ∀ n, c2Ctx.node_store.get p.1 = some n →
        n.completely_computed = true) →
      (select_next orT c2Ctx c2Parent c2Moves 2).1 = none) :=
  C2_amended_thm Nat Nat orT c2Ctx c2Parent c2Moves 2 (by decide)

end BoardGame

namespace BoardGame

def c1WCtx : MCContext Nat Nat :=
  { freshCtx Nat Nat 64 [] [] with node_store := twoChildStore }

unseal Rat.add Rat.mul Rat.inv Rat.sub in
/-- Witness for the amended C1 theorem: in a store whose two root children have
means 0 and 1/2, the selection returns the move of the unique maximal pair. -/
theorem C1_amended_thm_witness :
    ∃ k q, (chooseBestPairs c1WCtx [(0, 5), (1, 7)]).get? k = some (q, 7) ∧
      (∀ j p, (chooseBestPairs c1WCtx [(0, 5), (1, 7)]).get? j = some p → p.1 ≤ q) ∧
      (∀ j p, k < j → (chooseBestPairs c1WCtx [(0, 5), (1, 7)]).get? j = some p →
        p.1 < q) :=
  C1_amended_thm Nat Nat c1WCtx [(0, 5), (1, 7)] 7 (by decide)

/-- C1 counterexample game: states 0 = root, 1 = A, 2 = T1 (tie), 3 = T2 (tie).
Root moves: move 0 → A (ongoing), move 1 → T1 (immediate tie); A's only move
reaches the tie T2. -/
def tgC1 : GameFns Nat Nat :=
  { moves := fun s => if s = 0 then [0, 1] else if s = 1 then [0] else [],
    make_move := fun s m =>
      if s = 0 ∧ m = 0 then some (1, none)
      else if s = 0 ∧ m = 1 then some (2, some .TIE)
      else if s = 1 ∧ m = 0 then some (3, some .TIE)
      else none }

/-- Three playoffs of `select_move` on `tgC1` with all RNG draws equal to 0. -/
def c1Run : Option (Nat × MCContext Nat Nat) :=
  select_move tgC1 orT 64 10 10 (0 : Nat) 3 (freshCtx Nat Nat 64 [0, 0, 0] [0, 0, 0])

unseal Rat.add Rat.mul Rat.inv Rat.sub in
/-- C1 counterexample.  After three playoffs both expanded root children have
mean score 0 (a tie game: every backpropagated score is 0), but the child of
move 0 was visited twice and the child of move 1 once.  The claim's tie-break
picks the higher visit count, i.e. move 0; the code's `max_by` keeps the LAST
maximal element and returns move 1.  Visit counts are never consulted. -/
theorem C1_counterexample :
    (c1Run.map (fun r => r.1) = some 1) ∧
    (c1Run.bind (fun r => (r.2.node_store.get 0).bind
        (fun n => r.2.move_store.get n.moves)) = some [(1, 0), (3, 1)]) ∧
    ((c1Run.bind (fun r => r.2.node_store.get 1)).map
      (fun n => (n.visited_amount, n.score_balance / (n.visited_amount : ℚ)))
      = some (2, 0)) ∧
    ((c1Run.bind (fun r => r.2.node_store.get 3)).map
      (fun n => (n.visited_amount, n.score_balance / (n.visited_amount : ℚ)))
      = some (1, 0)) := by decide

end BoardGame

namespace BoardGame

/-- C3 amended.  What the code actually establishes: (1) a node CREATED by
`new_node_entry` has the solved flag set iff its game state is terminal, in
which case its move list handle is empty; (2) the solved-flag recomputation
used during backpropagation (`compute_completely_computed`) returns true iff
every move in the node's move slice has an allocated successor whose solved
flag is true.  The claimed global invariant between playoffs is falsified by
`C3_counterexample`: `playoff` also sets the flag on the CURRENT node as soon
as one expanded move wins for the mover, regardless of the other moves. -/
theorem C3_amended_thm :
    (∀ (S M : Type) [DecidableEq S] (G : GameFns S M) (pe parent_id : Nat)
        (gs : S) (winner : Option Winner) (ctx : MCContext S M),
        ctx.node_store.WF →
        ∃ n, ((new_node_entry G pe parent_id gs winner ctx).1).node_store.get
            ((new_node_entry G pe parent_id gs winner ctx).2) = some n ∧
          n.completely_computed = winner.isSome ∧
          n.visited_amount = 1 ∧
          (winner.isSome = true → n.moves = SliceHandle.empty)) ∧
    (∀ (S M : Type) (ctx : MCContext S M) (node : MCNode S)
        (mlist : List (Nat × M)),
        ctx.move_store.get node.moves = some mlist →
        (compute_completely_computed node ctx = true ↔
          ∀ p ∈ mlist, ∃ n, ctx.node_store.get p.1 = some n ∧
            n.completely_computed = true)) := by
  constructor
  · intro S M _ G pe parent_id gs winner ctx hwf
    cases winner with
    | none =>
      refine ⟨_, Arena.get_insert_self _ _ hwf, rfl, rfl, ?_⟩
      intro h
      simp at h
    | some w =>
      cases w with
      | WIN => exact ⟨_, Arena.get_insert_self _ _ hwf, rfl, rfl, fun _ => rfl⟩
      | TIE => exact ⟨_, Arena.get_insert_self _ _ hwf, rfl, rfl, fun _ => rfl⟩
  · intro S M ctx node mlist hml
    rw [compute_completely_computed, hml]
    rw [List.all_eq_true]
    constructor
    · intro hall p hp
      have := hall p hp
      cases hg : ctx.node_store.get p.1 with
      | none => rw [hg] at this; cases this
      | some n =>
        rw [hg] at this
        exact ⟨n, rfl, this⟩
    · intro hall p hp
      obtain ⟨n, hn, hcc⟩ := hall p hp
      rw [hn]
      exact hcc

end BoardGame

namespace BoardGame

/-- Context for the C3 witness: two allocated children (solved flags false) and
a move slice `[(0,0),(1,1)]` pointing at them. -/
def c3WIns : SliceArena (Nat × Nat) × SliceHandle :=
  (SliceArena.new (Nat × Nat) 64).insert 64 2 [(0, 0), (1, 1)]

def c3WCtx : MCContext Nat Nat :=
  { freshCtx Nat Nat 64 [] [] with
    node_store := twoChildStore
    move_store := c3WIns.1 }

def c3WNode : MCNode Nat :=
  { testNode 5 1 0 false with moves := c3WIns.2 }

/-- Witness for the amended C3 theorem: node creation on a terminal state, and
the solved-flag recomputation on a node with two live successors. -/
theorem C3_amended_thm_witness :
    (∃ n, ((new_node_entry tgC1 64 0 (1 : Nat) (some Winner.WIN)
          (freshCtx Nat Nat 64 [] [])).1).node_store.get
        ((new_node_entry tgC1 64 0 (1 : Nat) (some Winner.WIN)
          (freshCtx Nat Nat 64 [] [])).2) = some n ∧
      n.completely_computed = (some Winner.WIN).isSome ∧
      n.visited_amount = 1 ∧
      ((some Winner.WIN).isSome = true → n.moves = SliceHandle.empty)) ∧
    (compute_completely_computed c3WNode c3WCtx = true ↔
      ∀ p ∈ [((0 : Nat), (0 : Nat)), (1, 1)], ∃ n,
        c3WCtx.node_store.get p.1 = some n ∧ n.completely_computed = true) :=
  ⟨C3_amended_thm.1 Nat Nat tgC1 64 0 1 (some Winner.WIN)
      (freshCtx Nat Nat 64 [] []) (Arena.WF_new (MCNode Nat)),
    C3_amended_thm.2 Nat Nat c3WCtx c3WNode [(0, 0), (1, 1)] (by decide)⟩

/-- C3 counterexample game: states 0 = root, 1 = W (win for the mover),
2 = X (ongoing).  Root moves: move 0 → W, move 1 → X. -/
def tgC3 : GameFns Nat Nat :=
  { moves := fun s => if s = 0 then [0, 1] else if s = 2 then [0] else [],
    make_move := fun s m =>
      if s = 0 ∧ m = 0 then some (1, some .WIN)
      else if s = 0 ∧ m = 1 then some (2, none)
      else none }

/-- One playoff of `select_move` on `tgC3` with all RNG draws equal to 0. -/
def c3Run : Option (Nat × MCContext Nat Nat) :=
  select_move tgC3 orT 64 10 10 (0 : Nat) 1 (freshCtx Nat Nat 64 [0] [0])

unseal Rat.add Rat.mul Rat.inv Rat.sub in
/-- C3 counterexample.  After the single playoff (a point "between playoffs"),
the root's solved flag is true — `playoff` set it the moment move 0 produced a
WIN for the mover — yet the root's move slice still holds the unexpanded move 1
whose successor slot is the invalid sentinel and is allocated to no node.  The
claimed invariant (solved ↔ move list empty or all successors allocated and
solved) is violated at the root. -/
theorem C3_counterexample :
    ((c3Run.bind (fun r => r.2.node_store.get 0)).map
      (fun n => (n.completely_computed, n.visited_amount)) = some (true, 1)) ∧
    (c3Run.bind (fun r => (r.2.node_store.get 0).bind
        (fun n => r.2.move_store.get n.moves))
      = some [(1, 0), (arenaInvalidHandle, 1)]) ∧
    ((c3Run.bind (fun r => r.2.node_store.get arenaInvalidHandle)).isSome = false) ∧
    ((c3Run.bind (fun r => r.2.node_store.get 1)).map
      (fun n => n.completely_computed) = some true) := by decide

end BoardGame

namespace BoardGame

/-- C4 amended.  Backpropagation only walks predecessor links from the leaf
where the descent stopped: when that leaf has no predecessors (in particular
when the descent ends at the root, as happens whenever `select_next` returns
no move there), `backtrack_from_leaf` changes nothing at all — no node's visit
count is incremented, so a traversed node's visit count can stay below the
number of playoffs that reached it. -/
theorem C4_amended_thm (S M : Type) (fuel : Nat) (ctx : MCContext S M)
    (leaf : Nat) (n : MCNode S) (hget : ctx.node_store.get leaf = some n)
    (hpreds : n.predecessors.iter = []) :
    backtrack_from_leaf fuel ctx leaf = some ctx := by
  rw [backtrack_from_leaf, hget]
  simp [hpreds, backPhase1, backLoop]

def c4WCtx : MCContext Nat Nat :=
  { freshCtx Nat Nat 64 [] [] with node_store := twoChildStore }

/-- Witness: backpropagating from a predecessor-free leaf returns the context
unchanged. -/
theorem C4_amended_thm_witness :
    backtrack_from_leaf 5 c4WCtx 0 = some c4WCtx :=
  C4_amended_thm Nat Nat 5 c4WCtx 0 (testNode 0 2 0 false) (by decide) (by decide)

/-- C4 counterexample game: states 0 = root, 1 = A, 2 = B, 3 = B', 4 = W.
Root has the single move 0 → A; A has moves 0 → B and 1 → B'; B has the single
move 0 → W which wins for the mover. -/
def tgC4 : GameFns Nat Nat :=
  { moves := fun s =>
      if s = 0 then [0] else if s = 1 then [0, 1] else if s = 2 then [0] else [],
    make_move := fun s m =>
      if s = 0 ∧ m = 0 then some (1, none)
      else if s = 1 ∧ m = 0 then some (2, none)
      else if s = 1 ∧ m = 1 then some (3, none)
      else if s = 2 ∧ m = 0 then some (4, some .WIN)
      else none }

/-- Two playoffs of `select_move` on `tgC4` with all RNG draws equal to 0. -/
def c4Run : Option (Nat × MCContext Nat Nat) :=
  select_move tgC4 orT 64 10 10 (0 : Nat) 2 (freshCtx Nat Nat 64 [0, 0, 0] [0, 0])

unseal Rat.add Rat.mul Rat.inv Rat.sub in
/-- C4 counterexample.  The budget is N = 2 playoffs and both traverse the
root (the run completes, returning a move), the root is not solved, yet its
visit count is 1, not 2: the second playoff's descent ends at the root (its
only child's clamped score 1/4 exceeds the drawn 0, so no prefix sum is `≤`
the draw) and backpropagation from the predecessor-free root updates nothing.
The root's nonzero score balance shows the first playoff did reach it. -/
theorem C4_counterexample :
    (c4Run.map (fun r => r.1) = some 0) ∧
    ((c4Run.bind (fun r => r.2.node_store.get 0)).map
      (fun n => (n.visited_amount, n.completely_computed, n.score_balance))
      = some (1, false, -1/2)) ∧
    ((c4Run.bind (fun r => r.2.node_store.get 1)).map
      (fun n => (n.visited_amount, n.completely_computed))
      = some (2, false)) := by decide

end BoardGame
